import Mathlib

set_option maxHeartbeats 1600000

/-! Verification of the Boyer-Moore exact substring search implementation in
`Boyer-Moore.cpp`.  Texts and patterns are sequences of byte-sized symbols
(the C++ code casts every indexed character to `unsigned char`), modelled as
`Fin 256`.  The C++ `std::vector<int>` tables are modelled as `List Int`
(shift tables) and `List Nat` (border positions); vector reads and writes
become `List.getD` and `List.set`.  Each C++ `while`/`for` loop is modelled
as a fuel-indexed structural recursion whose fuel is instantiated with the
loop's exact trip-count bound; the lemmas below prove that every loop
reaches its exit condition within that bound, so the embedding computes
exactly what the C++ loops compute. -/

/-- Byte-sized alphabet symbol (C++ `unsigned char` after the casts). -/
abbrev Symb : Type := Fin 256

/-- C++ constant `NUM_CHARS = 256`. -/
def NUM_CHARS : Nat := 256

/-- `precomputeBadCharacterTable`: table of size `NUM_CHARS`, all entries
initialised to `-1`, then a left-to-right scan of the pattern records each
character's index (later occurrences overwrite earlier ones). -/
def precomputeBadCharacterTable (pattern : List Symb) : List Int :=
  (List.range pattern.length).foldl
    (fun tbl i => tbl.set (pattern.getD i 0).val (Int.ofNat i))
    (List.replicate NUM_CHARS (-1))

/-- State of the two intertwined loops of `precomputeGoodSuffixTable`:
`bp` is the C++ `borderPos` vector, `gs` is `goodSuffixShifts`, `i` and `j`
are the loop variables, and `writes` is a ghost log of the `goodSuffixShifts`
slots assigned so far, in order of assignment. -/
structure GSState where
  bp : List Nat
  gs : List Int
  i : Nat
  j : Nat
  writes : List Nat
deriving Repr, DecidableEq

/-- Inner `while` loop of the border pass of `precomputeGoodSuffixTable`:
while `j <= m` and `pattern[i-1] != pattern[j-1]`, record the candidate
shift `j - i` into `goodSuffixShifts[j]` when that slot is still `0`, then
follow the border chain `j := borderPos[j]`.  The fuel argument bounds the
number of iterations; the search is always run with fuel `m + 2`, which the
invariant lemmas show is never exhausted. -/
def gsInnerLoop (pattern : List Symb) (m : Nat) : Nat → GSState → GSState
  | 0, st => st
  | fuel+1, st =>
    if st.j ≤ m ∧ pattern.getD (st.i - 1) 0 ≠ pattern.getD (st.j - 1) 0 then
      let st1 :=
        if st.gs.getD st.j 0 = 0 then
          { st with gs := st.gs.set st.j ((st.j : Int) - (st.i : Int)),
                    writes := st.writes ++ [st.j] }
        else st
      gsInnerLoop pattern m fuel { st1 with j := st1.bp.getD st1.j 0 }
    else st

/-- Outer `while (i > 0)` loop of the border pass: run the inner loop, then
`i--; j--; borderPos[i] = j`.  Each iteration decreases `i` by exactly one,
so fuel `m` runs the loop to completion from `i = m`. -/
def gsOuterLoop (pattern : List Symb) (m : Nat) : Nat → GSState → GSState
  | 0, st => st
  | fuel+1, st =>
    if 0 < st.i then
      let st1 := gsInnerLoop pattern m (m + 2) st
      let st2 := { st1 with i := st1.i - 1, j := st1.j - 1 }
      gsOuterLoop pattern m fuel { st2 with bp := st2.bp.set st2.i st2.j }
    else st

/-- Final fill pass of `precomputeGoodSuffixTable`: `for (i = 0; i <= m; ++i)`
fill every still-zero slot with the current border-chain position `j`,
advancing `j := borderPos[j]` whenever `i` reaches `j`.  Called with fuel
`m + 1`, the exact trip count.  Also extends the ghost write log. -/
def gsFillLoop (bp : List Nat) : Nat → Nat → Nat → List Int → List Nat → List Int × List Nat
  | 0, _, _, gs, w => (gs, w)
  | fuel+1, i, j, gs, w =>
    let gw := if gs.getD i 0 = 0 then (gs.set i (Int.ofNat j), w ++ [i]) else (gs, w)
    gsFillLoop bp fuel (i+1) (if i = j then bp.getD j 0 else j) gw.1 gw.2

/-- Complete run of `precomputeGoodSuffixTable`, returning the shift table
together with the final `borderPos` vector and the ghost write log.  The
initialisation mirrors the C++ code: `goodSuffixShifts` of size `m+1` all
zero, `borderPos` of size `m+1` value-initialised to zero, then `i = m`,
`j = m + 1`, `borderPos[i] = j`. -/
def precomputeGoodSuffixTableFull (pattern : List Symb) : List Int × List Nat × List Nat :=
  let m := pattern.length
  let st0 : GSState :=
    { bp := (List.replicate (m+1) 0).set m (m+1)
      gs := List.replicate (m+1) 0
      i := m
      j := m + 1
      writes := [] }
  let st := gsOuterLoop pattern m m st0
  let gw := gsFillLoop st.bp (m+1) 0 (st.bp.getD 0 0) st.gs st.writes
  (gw.1, st.bp, gw.2)

/-- The good-suffix shift table itself (`goodSuffixShifts` after
`precomputeGoodSuffixTable` returns). -/
def precomputeGoodSuffixTable (pattern : List Symb) : List Int :=
  (precomputeGoodSuffixTableFull pattern).1

/-- One step of the search loop, as observable data: either a full match at
an alignment, or a mismatch with the two heuristic shifts, the heuristic
credited by the code, and the applied shift. -/
inductive AlignmentEvent where
  | fullMatch (shift : Nat) (finalShift : Int)
  | mismatch (shift j : Nat) (badCharShift goodSuffixShift : Int)
      (heuristic : String) (finalShift : Int)
deriving Repr, DecidableEq

/-- Right-to-left comparison loop of `searchBoyerMoore` at alignment
`shift`, starting from pattern position `j` (the search calls it with
`j = m - 1`): `none` when `j` runs past position `0` with every comparison
succeeding (C++ `j` reaching `-1`), `some j` at the first mismatch. -/
def mismatchAt (text pattern : List Symb) (shift : Nat) : Nat → Option Nat
  | 0 => if pattern.getD 0 0 = text.getD shift 0 then none else some 0
  | j+1 =>
    if pattern.getD (j+1) 0 = text.getD (shift+j+1) 0 then
      mismatchAt text pattern shift j
    else some (j+1)

/-- State of the main search loop: the C++ locals `shift`, `matchedIndex`,
`found`, `totalSkippedChars`, `step`, plus ghost logs of the alignment
offsets visited (printed by `printAlignmentStep`) and of the per-step
events. -/
structure BMState where
  shift : Nat
  matchedIndex : List Nat
  found : Bool
  totalSkippedChars : Int
  step : Nat
  offsets : List Nat
  events : List AlignmentEvent
deriving Repr, DecidableEq

/-- One iteration of the main search loop: log the alignment, compare right
to left, then either record a full match and shift by `goodSuffixShifts[0]`,
or compute the bad-character and good-suffix shifts and apply their
maximum. -/
def bmStep (text pattern : List Symb) (badCharTable goodSuffixShifts : List Int)
    (n m : Nat) (st : BMState) : BMState :=
  match mismatchAt text pattern st.shift (m - 1) with
  | none =>
    let finalShift := goodSuffixShifts.getD 0 0
    { shift := st.shift + finalShift.toNat
      matchedIndex := st.matchedIndex ++ [st.shift]
      found := true
      totalSkippedChars :=
        if 1 < finalShift ∧ st.shift + finalShift.toNat ≤ n - m then
          st.totalSkippedChars + (finalShift - 1)
        else st.totalSkippedChars
      step := st.step + 1
      offsets := st.offsets ++ [st.shift]
      events := st.events ++ [.fullMatch st.shift finalShift] }
  | some j =>
    let badCharShift : Int :=
      max 1 ((j : Int) - badCharTable.getD (text.getD (st.shift + j) 0).val 0)
    let goodSuffixShift : Int := goodSuffixShifts.getD (j+1) 0
    let finalShift := max badCharShift goodSuffixShift
    let heuristic := if badCharShift ≥ goodSuffixShift then "Bad Character" else "Good Suffix"
    { shift := st.shift + finalShift.toNat
      matchedIndex := st.matchedIndex
      found := st.found
      totalSkippedChars :=
        if 1 < finalShift ∧ st.shift + finalShift.toNat ≤ n - m then
          st.totalSkippedChars + (finalShift - 1)
        else st.totalSkippedChars
      step := st.step + 1
      offsets := st.offsets ++ [st.shift]
      events := st.events ++
        [.mismatch st.shift j badCharShift goodSuffixShift heuristic finalShift] }

/-- Main search loop `while (shift <= n - m)`, fuel-indexed.  The search
runs it with fuel `n - m + 1`; since every applied shift is at least `1`
(proved below), that fuel is never exhausted. -/
def bmLoop (text pattern : List Symb) (badCharTable goodSuffixShifts : List Int)
    (n m : Nat) : Nat → BMState → BMState
  | 0, st => st
  | fuel+1, st =>
    if st.shift ≤ n - m then
      bmLoop text pattern badCharTable goodSuffixShifts n m fuel
        (bmStep text pattern badCharTable goodSuffixShifts n m st)
    else st

/-- Initial state of the search loop: `shift = 0`, no matches, `found`
false, no characters skipped, step counter `1`. -/
def initBMState : BMState :=
  { shift := 0, matchedIndex := [], found := false, totalSkippedChars := 0,
    step := 1, offsets := [], events := [] }

/-- Observable result of `searchBoyerMoore`: the degenerate-input marker
(the early `return` after the `m == 0 || n < m` test), the recorded match
offsets, the `found` flag, the skipped-character total, and the ghost
offset/event logs. -/
structure SearchResult where
  degenerate : Bool
  matchedIndex : List Nat
  found : Bool
  totalSkippedChars : Int
  offsets : List Nat
  events : List AlignmentEvent
deriving Repr, DecidableEq

/-- `searchBoyerMoore`: degenerate-input test, table preprocessing, then the
main alignment loop. -/
def searchBoyerMoore (text pattern : List Symb) : SearchResult :=
  let n := text.length
  let m := pattern.length
  if m = 0 ∨ n < m then
    { degenerate := true, matchedIndex := [], found := false,
      totalSkippedChars := 0, offsets := [], events := [] }
  else
    let badCharTable := precomputeBadCharacterTable pattern
    let goodSuffixShifts := precomputeGoodSuffixTable pattern
    let final := bmLoop text pattern badCharTable goodSuffixShifts n m (n - m + 1) initBMState
    { degenerate := false, matchedIndex := final.matchedIndex, found := final.found,
      totalSkippedChars := final.totalSkippedChars, offsets := final.offsets,
      events := final.events }

/-- Bounds-checked sequence read, modelling the in-bounds precondition of
C++ `std::vector` / `std::string` indexing: `none` exactly when the index
is out of range, otherwise the element. -/
def readL {α : Type*} (l : List α) (i : Nat) : Option α := l[i]?

/-- Bounds-checked sequence write: `none` exactly when the index is out of
range, otherwise the updated sequence. -/
def writeL {α : Type*} (l : List α) (i : Nat) (v : α) : Option (List α) :=
  if i < l.length then some (l.set i v) else none

/-- Bounds-checked shadow of `precomputeBadCharacterTable`: every table
write and pattern read goes through the checked accessors. -/
def precomputeBadCharacterTableChecked (pattern : List Symb) : Option (List Int) :=
  (List.range pattern.length).foldlM
    (fun tbl i => do
      let c ← readL pattern i
      writeL tbl c.val (Int.ofNat i))
    (List.replicate NUM_CHARS (-1))

/-- Bounds-checked shadow of `gsInnerLoop`: same control flow, but every
`pattern`, `goodSuffixShifts` and `borderPos` access is checked.  The
`&&` in the C++ loop condition short-circuits, so the two pattern reads
happen only under `j <= m`. -/
def gsInnerLoopChecked (pattern : List Symb) (m : Nat) : Nat → GSState → Option GSState
  | 0, st => some st
  | fuel+1, st =>
    if st.j ≤ m then do
      let pi ← readL pattern (st.i - 1)
      let pj ← readL pattern (st.j - 1)
      if pi ≠ pj then do
        let g ← readL st.gs st.j
        let st1 ←
          if g = 0 then do
            let gs1 ← writeL st.gs st.j ((st.j : Int) - (st.i : Int))
            pure { st with gs := gs1, writes := st.writes ++ [st.j] }
          else pure st
        let bpj ← readL st1.bp st1.j
        gsInnerLoopChecked pattern m fuel { st1 with j := bpj }
      else pure st
    else pure st

/-- Bounds-checked shadow of `gsOuterLoop`. -/
def gsOuterLoopChecked (pattern : List Symb) (m : Nat) : Nat → GSState → Option GSState
  | 0, st => some st
  | fuel+1, st =>
    if 0 < st.i then do
      let st1 ← gsInnerLoopChecked pattern m (m + 2) st
      let st2 := { st1 with i := st1.i - 1, j := st1.j - 1 }
      let bp1 ← writeL st2.bp st2.i st2.j
      gsOuterLoopChecked pattern m fuel { st2 with bp := bp1 }
    else pure st

/-- Bounds-checked shadow of `gsFillLoop`. -/
def gsFillLoopChecked (bp : List Nat) :
    Nat → Nat → Nat → List Int → List Nat → Option (List Int × List Nat)
  | 0, _, _, gs, w => some (gs, w)
  | fuel+1, i, j, gs, w => do
    let g ← readL gs i
    let gw ←
      if g = 0 then do
        let gs1 ← writeL gs i (Int.ofNat j)
        pure (gs1, w ++ [i])
      else pure (gs, w)
    let j1 ← if i = j then readL bp j else pure j
    gsFillLoopChecked bp fuel (i+1) j1 gw.1 gw.2

/-- Bounds-checked shadow of `precomputeGoodSuffixTable`, including the
initial `borderPos[m] = m+1` write. -/
def precomputeGoodSuffixTableChecked (pattern : List Symb) : Option (List Int) := do
  let m := pattern.length
  let bp0 ← writeL (List.replicate (m+1) 0) m (m+1)
  let st ← gsOuterLoopChecked pattern m m
    { bp := bp0, gs := List.replicate (m+1) 0, i := m, j := m + 1, writes := [] }
  let j0 ← readL st.bp 0
  let gw ← gsFillLoopChecked st.bp (m+1) 0 j0 st.gs st.writes
  pure gw.1

/-- Bounds-checked shadow of the right-to-left comparison loop. -/
def mismatchAtChecked (text pattern : List Symb) (shift : Nat) : Nat → Option (Option Nat)
  | 0 => do
    let p0 ← readL pattern 0
    let t0 ← readL text shift
    pure (if p0 = t0 then none else some 0)
  | j+1 => do
    let pj ← readL pattern (j+1)
    let tj ← readL text (shift+j+1)
    if pj = tj then mismatchAtChecked text pattern shift j
    else pure (some (j+1))

/-- Bounds-checked shadow of one main-loop iteration. -/
def bmStepChecked (text pattern : List Symb) (badCharTable goodSuffixShifts : List Int)
    (n m : Nat) (st : BMState) : Option BMState := do
  let r ← mismatchAtChecked text pattern st.shift (m - 1)
  match r with
  | none => do
    let finalShift ← readL goodSuffixShifts 0
    pure { shift := st.shift + finalShift.toNat
           matchedIndex := st.matchedIndex ++ [st.shift]
           found := true
           totalSkippedChars :=
             if 1 < finalShift ∧ st.shift + finalShift.toNat ≤ n - m then
               st.totalSkippedChars + (finalShift - 1)
             else st.totalSkippedChars
           step := st.step + 1
           offsets := st.offsets ++ [st.shift]
           events := st.events ++ [.fullMatch st.shift finalShift] }
  | some j => do
    let c ← readL text (st.shift + j)
    let bcv ← readL badCharTable c.val
    let goodSuffixShift ← readL goodSuffixShifts (j+1)
    let badCharShift : Int := max 1 ((j : Int) - bcv)
    let finalShift := max badCharShift goodSuffixShift
    let heuristic := if badCharShift ≥ goodSuffixShift then "Bad Character" else "Good Suffix"
    pure { shift := st.shift + finalShift.toNat
           matchedIndex := st.matchedIndex
           found := st.found
           totalSkippedChars :=
             if 1 < finalShift ∧ st.shift + finalShift.toNat ≤ n - m then
               st.totalSkippedChars + (finalShift - 1)
             else st.totalSkippedChars
           step := st.step + 1
           offsets := st.offsets ++ [st.shift]
           events := st.events ++
             [.mismatch st.shift j badCharShift goodSuffixShift heuristic finalShift] }

/-- Bounds-checked shadow of the main search loop. -/
def bmLoopChecked (text pattern : List Symb) (badCharTable goodSuffixShifts : List Int)
    (n m : Nat) : Nat → BMState → Option BMState
  | 0, st => some st
  | fuel+1, st =>
    if st.shift ≤ n - m then do
      let st1 ← bmStepChecked text pattern badCharTable goodSuffixShifts n m st
      bmLoopChecked text pattern badCharTable goodSuffixShifts n m fuel st1
    else pure st

/-- Bounds-checked shadow of `searchBoyerMoore`: `some` exactly when every
array and string access of the whole search stays in bounds, in which case
it returns the same result. -/
def searchBoyerMooreChecked (text pattern : List Symb) : Option SearchResult :=
  if pattern.length = 0 ∨ text.length < pattern.length then
    some { degenerate := true, matchedIndex := [], found := false,
           totalSkippedChars := 0, offsets := [], events := [] }
  else do
    let badCharTable ← precomputeBadCharacterTableChecked pattern
    let goodSuffixShifts ← precomputeGoodSuffixTableChecked pattern
    let final ← bmLoopChecked text pattern badCharTable goodSuffixShifts
      text.length pattern.length (text.length - pattern.length + 1) initBMState
    pure { degenerate := false, matchedIndex := final.matchedIndex, found := final.found,
           totalSkippedChars := final.totalSkippedChars, offsets := final.offsets,
           events := final.events }

/-- Naive character-by-character occurrence check at text offset `i`. -/
def occursAt (text pattern : List Symb) (i : Nat) : Bool :=
  (List.range pattern.length).all fun k =>
    decide (pattern.getD k 0 = text.getD (i+k) 0)

/-- Naive O(n·m) reference scan: all offsets `i` with
`text[i : i + len(pattern)] = pattern`, in ascending order. -/
def naiveOccurrences (text pattern : List Symb) : List Nat :=
  (List.range (text.length - pattern.length + 1)).filter (occursAt text pattern)

/-- `prefMatch p i b`: the suffix of `p` starting at `b` appears again
starting at position `i` of `p` (character-by-character equality on the
first `p.length - b` positions). -/
def prefMatch (p : List Symb) (i b : Nat) : Prop :=
  ∀ u, u < p.length - b → p.getD (i+u) 0 = p.getD (b+u) 0

/-- `isBorderStart p i b`: the suffix of `p` starting at `b` is a proper
border of the suffix of `p` starting at `i`: it is a suffix of `p` (hence
of that suffix) and also occurs as its prefix, with `i < b ≤ p.length`
(`b = p.length` is the empty border). -/
def isBorderStart (p : List Symb) (i b : Nat) : Prop :=
  i < b ∧ b ≤ p.length ∧ prefMatch p i b

/-- `isWidestBorderPos p i b`: `b` is what `borderPos[i]` is documented to
hold: the starting position of the widest border of the suffix beginning at
`i` (i.e. the least admissible border start), with the sentinel `m + 1` at
`i = m`. -/
def isWidestBorderPos (p : List Symb) (i b : Nat) : Prop :=
  (i < p.length → isBorderStart p i b ∧ ∀ b', isBorderStart p i b' → b ≤ b') ∧
  (i = p.length → b = p.length + 1)

/-- `validShift p k e`: shifting the pattern right by `e` is compatible with
the information at shift-table slot `k` (matched suffix `p[k..m-1]`,
mismatch at position `k-1` when `k > 0`): the matched suffix still agrees
with the pattern after the shift, and the character newly aligned with the
mismatch position differs from `p[k-1]` when it exists. -/
def validShift (p : List Symb) (k e : Nat) : Prop :=
  (∀ t, k ≤ t → t < p.length → e ≤ t → p.getD (t - e) 0 = p.getD t 0) ∧
  (e < k → p.getD (k - 1 - e) 0 ≠ p.getD (k - 1) 0)

/-- `isBorderLen p l`: the whole pattern has a proper border of length `l`
(its prefix of length `l` equals its suffix of length `l`). -/
def isBorderLen (p : List Symb) (l : Nat) : Prop :=
  l < p.length ∧ ∀ u, u < l → p.getD u 0 = p.getD (p.length - l + u) 0

/-- Invariant holding at the top of every iteration of the outer border-pass
loop of `precomputeGoodSuffixTable` (counter `st.i`): the entries of
`borderPos` at indices `st.i .. m` hold widest-border positions, `st.j` is
`borderPos[st.i]`, every nonzero `goodSuffixShifts` entry `k` holds `k - c`
for the outer iteration `c > st.i` that wrote it, every case-1 shift
opportunity of an already-completed iteration has been recorded with a value
at least as small, and the ghost write log holds exactly the nonzero slots,
each once. -/
structure OuterInv (p : List Symb) (st : GSState) : Prop where
  hi : st.i ≤ p.length
  hbpLen : st.bp.length = p.length + 1
  hgsLen : st.gs.length = p.length + 1
  hj : st.j = st.bp.getD st.i 0
  hbp : ∀ k, st.i ≤ k → k ≤ p.length → isWidestBorderPos p k (st.bp.getD k 0)
  hform : ∀ k, k ≤ p.length → st.gs.getD k 0 ≠ 0 →
    ∃ c, st.i < c ∧ c ≤ p.length ∧ c < k ∧ st.gs.getD k 0 = (k : Int) - (c : Int)
  hdone : ∀ c k, st.i < c → c ≤ p.length → k ≤ p.length →
    isBorderStart p c k → p.getD (c-1) 0 ≠ p.getD (k-1) 0 →
    st.gs.getD k 0 ≠ 0 ∧ st.gs.getD k 0 ≤ (k : Int) - (c : Int)
  hwnd : st.writes.Nodup
  hwmem : ∀ k, k ∈ st.writes ↔ (k ≤ p.length ∧ st.gs.getD k 0 ≠ 0)

/-- Invariant of the border-chain walk performed by the inner loop of the
border pass during the outer iteration with counter `i`, relative to the
`goodSuffixShifts` snapshot `gs0` taken when the walk started: `st.j` walks
the border chain of the suffix at `i` upward, no border whose preceding
character matches `pattern[i-1]` has been passed, and every mismatching
border below `st.j` has already received a shift value of at most `k - i`. -/
structure InnerInv (p : List Symb) (i : Nat) (gs0 : List Int) (st : GSState) : Prop where
  hiEq : st.i = i
  hi1 : 1 ≤ i
  him : i ≤ p.length
  hij : i < st.j
  hjm1 : st.j ≤ p.length + 1
  hjb : st.j ≤ p.length → isBorderStart p i st.j
  hmin : ∀ b, isBorderStart p i b → p.getD (b-1) 0 = p.getD (i-1) 0 → st.j ≤ b
  hgsLen : st.gs.length = gs0.length
  hpres : ∀ k, gs0.getD k 0 ≠ 0 → st.gs.getD k 0 = gs0.getD k 0
  hnew : ∀ k, st.gs.getD k 0 ≠ gs0.getD k 0 →
    gs0.getD k 0 = 0 ∧ st.gs.getD k 0 = (k : Int) - (i : Int) ∧ i < k ∧ k ≤ p.length
  hdone2 : ∀ k, k ≤ p.length → isBorderStart p i k → p.getD (i-1) 0 ≠ p.getD (k-1) 0 →
    k < st.j → st.gs.getD k 0 ≠ 0 ∧ st.gs.getD k 0 ≤ (k : Int) - (i : Int)
  hwnd : st.writes.Nodup
  hwmem : ∀ k, k ∈ st.writes ↔ (k ≤ p.length ∧ st.gs.getD k 0 ≠ 0)

/-- Invariant at the top of every iteration of the main search loop: the
recorded matches are exactly the naive occurrences below the current
alignment, the visited alignments are strictly increasing, below the
current alignment and within the valid range, and the logged events
faithfully describe each visited alignment (`(st.offsets ++ [st.shift])`
treats the current alignment as the successor of the last logged one). -/
structure BMInv (text pattern : List Symb) (badCharTable goodSuffixShifts : List Int)
    (st : BMState) : Prop where
  hmatched : st.matchedIndex =
    (naiveOccurrences text pattern).filter (fun q => decide (q < st.shift))
  hoff : st.offsets.Pairwise (· < ·)
  hofflt : ∀ o ∈ st.offsets, o < st.shift ∧ o ≤ text.length - pattern.length
  hevlen : st.events.length = st.offsets.length
  hfull : ∀ idx s fs, idx < st.events.length →
    st.events.getD idx (.mismatch 0 0 0 0 "" 0) = .fullMatch s fs →
    st.offsets.getD idx 0 = s ∧ s ∈ st.matchedIndex ∧
    fs = goodSuffixShifts.getD 0 0 ∧
    (st.offsets ++ [st.shift]).getD (idx+1) 0 = s + fs.toNat
  hmis : ∀ idx s j bcs gss h fs, idx < st.events.length →
    st.events.getD idx (.mismatch 0 0 0 0 "" 0) = .mismatch s j bcs gss h fs →
    st.offsets.getD idx 0 = s ∧ j < pattern.length ∧
    bcs = max 1 ((j : Int) - badCharTable.getD (text.getD (s + j) 0).val 0) ∧
    gss = goodSuffixShifts.getD (j+1) 0 ∧
    fs = max bcs gss ∧
    (h = "Bad Character" ↔ gss ≤ bcs) ∧
    (st.offsets ++ [st.shift]).getD (idx+1) 0 = s + fs.toNat

/-- Example symbol `A` (byte 65) for concrete test inputs. -/
def symA : Symb := 65

/-- Example symbol `B` (byte 66) for concrete test inputs. -/
def symB : Symb := 66

/-- Example symbol `C` (byte 67) for concrete test inputs. -/
def symC : Symb := 67

theorem getD_set_self {α : Type*} (l : List α) (i : Nat) (v d : α) (h : i < l.length) :
    (l.set i v).getD i d = v := by
  simp [List.getD_eq_getElem?_getD, List.getElem?_set_self h]

theorem getD_set_ne {α : Type*} (l : List α) (i j : Nat) (v d : α) (h : i ≠ j) :
    (l.set i v).getD j d = l.getD j d := by
  simp [List.getD_eq_getElem?_getD, List.getElem?_set_ne h]

theorem getD_replicate {α : Type*} (n : Nat) (a d : α) (i : Nat) (h : i < n) :
    (List.replicate n a).getD i d = a := by
  simp [List.getD_eq_getElem?_getD, List.getElem?_replicate, h]

theorem bc_foldl_length (p : List Symb) (l : List Nat) (init : List Int) :
    (l.foldl (fun tbl i => tbl.set (p.getD i 0).val (Int.ofNat i)) init).length =
      init.length := by
  induction l generalizing init with
  | nil => rfl
  | cons x xs ih => simpa using ih (init.set (p.getD x 0).val (Int.ofNat x))

theorem bc_foldl_ext (p q : List Symb) (l : List Nat) (init : List Int)
    (h : ∀ i ∈ l, p.getD i 0 = q.getD i 0) :
    l.foldl (fun tbl i => tbl.set (p.getD i 0).val (Int.ofNat i)) init =
      l.foldl (fun tbl i => tbl.set (q.getD i 0).val (Int.ofNat i)) init := by
  induction l generalizing init with
  | nil => rfl
  | cons x xs ih =>
    simp only [List.foldl_cons]
    rw [h x (by simp)]
    exact ih _ fun i hi => h i (by simp [hi])

theorem precomputeBadCharacterTable_length (p : List Symb) :
    (precomputeBadCharacterTable p).length = NUM_CHARS := by
  unfold precomputeBadCharacterTable
  rw [bc_foldl_length]
  exact List.length_replicate _ _

theorem precomputeBadCharacterTable_snoc (p : List Symb) (a : Symb) :
    precomputeBadCharacterTable (p ++ [a]) =
      (precomputeBadCharacterTable p).set a.val (Int.ofNat p.length) := by
  unfold precomputeBadCharacterTable
  rw [List.length_append, List.length_singleton, List.range_succ, List.foldl_append]
  simp only [List.foldl_cons, List.foldl_nil]
  rw [bc_foldl_ext (p ++ [a]) p _ _
    (fun i hi => List.getD_append _ _ _ _ (by simpa using List.mem_range.mp hi))]
  have hlast : (p ++ [a]).getD p.length 0 = a := by
    rw [List.getD_eq_getElem _ _ (by simp)]
    simp
  rw [hlast]

theorem precomputeBadCharacterTable_char (p : List Symb) (c : Symb) :
    ((precomputeBadCharacterTable p).getD c.val 0 = -1 ∧
      ∀ i, i < p.length → p.getD i 0 ≠ c) ∨
    (∃ i, i < p.length ∧ p.getD i 0 = c ∧
      (precomputeBadCharacterTable p).getD c.val 0 = Int.ofNat i ∧
      ∀ i', i' < p.length → p.getD i' 0 = c → i' ≤ i) := by
  induction p using List.reverseRecOn with
  | nil =>
    left
    constructor
    · exact getD_replicate _ _ _ _ c.isLt
    · intro i hi
      exact absurd hi (by simp)
  | append_singleton q a ih =>
    by_cases hca : a = c
    · right
      refine ⟨q.length, by simp, ?_, ?_, ?_⟩
      · rw [List.getD_eq_getElem _ _ (by simp)]
        simpa using hca
      · rw [precomputeBadCharacterTable_snoc, hca,
          getD_set_self _ _ _ _ (by rw [precomputeBadCharacterTable_length]; exact c.isLt)]
      · intro i' hi' _
        simp only [List.length_append, List.length_singleton] at hi'
        omega
    · have hval : a.val ≠ c.val := fun h => hca (Fin.val_injective h)
      rw [precomputeBadCharacterTable_snoc, getD_set_ne _ _ _ _ _ hval]
      rcases ih with ⟨h1, h2⟩ | ⟨i, hi, hic, hval', hmax⟩
      · left
        refine ⟨h1, fun i hi hc => ?_⟩
        simp only [List.length_append, List.length_singleton] at hi
        rcases Nat.lt_or_ge i q.length with h | h
        · exact h2 i h (by rwa [List.getD_append _ _ _ _ h] at hc)
        · have : i = q.length := by omega
          subst this
          rw [List.getD_eq_getElem _ _ (by simp)] at hc
          simp at hc
          exact hca hc
      · right
        refine ⟨i, by simp; omega, ?_, hval', fun i' hi' hc => ?_⟩
        · rwa [List.getD_append _ _ _ _ hi]
        · simp only [List.length_append, List.length_singleton] at hi'
          rcases Nat.lt_or_ge i' q.length with h | h
          · exact hmax i' h (by rwa [List.getD_append _ _ _ _ h] at hc)
          · have : i' = q.length := by omega
            subst this
            rw [List.getD_eq_getElem _ _ (by simp)] at hc
            simp at hc
            exact absurd hc hca

/-- C6: for every pattern, `precomputeBadCharacterTable` produces a table of
size `NUM_CHARS = 256` in which every symbol is mapped to the greatest
pattern index holding it (so repeated symbols keep exactly their rightmost
index), or to the absent sentinel `-1` if the symbol never occurs; the empty
pattern yields the all-absent table. -/
theorem claim_C6_badCharTable (pattern : List Symb) :
    (precomputeBadCharacterTable pattern).length = NUM_CHARS ∧
    (∀ c : Symb, (precomputeBadCharacterTable ([] : List Symb)).getD c.val 0 = -1) ∧
    ∀ c : Symb,
      ((precomputeBadCharacterTable pattern).getD c.val 0 = -1 ∧
        ∀ i, i < pattern.length → pattern.getD i 0 ≠ c) ∨
      (∃ i, i < pattern.length ∧ pattern.getD i 0 = c ∧
        (precomputeBadCharacterTable pattern).getD c.val 0 = Int.ofNat i ∧
        ∀ i', i' < pattern.length → pattern.getD i' 0 = c → i' ≤ i) :=
  ⟨precomputeBadCharacterTable_length pattern,
   fun c => getD_replicate _ _ _ _ c.isLt,
   fun c => precomputeBadCharacterTable_char pattern c⟩

/-- C7: when the pattern is empty or longer than the text,
`searchBoyerMoore` does no scanning and returns the explicit degenerate
empty result (no matches, no visited alignments, no events). -/
theorem claim_C7_degenerate (text pattern : List Symb)
    (h : pattern.length = 0 ∨ text.length < pattern.length) :
    searchBoyerMoore text pattern =
      { degenerate := true, matchedIndex := [], found := false,
        totalSkippedChars := 0, offsets := [], events := [] } := by
  unfold searchBoyerMoore
  rw [if_pos h]

/-- Witness for C7 at the concrete degenerate input from the spec
(`search("AB", "ABC")`): pattern longer than text. -/
theorem claim_C7_degenerate_witness :
    (([symA, symB, symC] : List Symb).length = 0 ∨
      ([symA, symB] : List Symb).length < ([symA, symB, symC] : List Symb).length) ∧
    searchBoyerMoore [symA, symB] [symA, symB, symC] =
      { degenerate := true, matchedIndex := [], found := false,
        totalSkippedChars := 0, offsets := [], events := [] } :=
  ⟨by decide, claim_C7_degenerate [symA, symB] [symA, symB, symC] (by decide)⟩

/-- C10: for the empty pattern, `precomputeGoodSuffixTable` returns a table
of length exactly 1 whose single entry is 1. -/
theorem claim_C10_emptyPattern :
    precomputeGoodSuffixTable ([] : List Symb) = [1] := by decide

theorem isBorderStart_end (p : List Symb) (i : Nat) (h : i < p.length) :
    isBorderStart p i p.length :=
  ⟨h, le_refl _, fun u hu => absurd hu (by omega)⟩

theorem isBorderStart_lt {p : List Symb} {i b : Nat} (h : isBorderStart p i b) : i < b := h.1

theorem isBorderStart_le {p : List Symb} {i b : Nat} (h : isBorderStart p i b) :
    b ≤ p.length := h.2.1

theorem isBorderStart_trans {p : List Symb} {i b1 b2 : Nat}
    (h1 : isBorderStart p i b1) (h2 : isBorderStart p b1 b2) :
    isBorderStart p i b2 := by
  obtain ⟨hib, hbm, hpm⟩ := h1
  obtain ⟨hbb, hbm2, hpm2⟩ := h2
  refine ⟨lt_trans hib hbb, hbm2, fun u hu => ?_⟩
  rw [hpm u (by omega), hpm2 u hu]

theorem isBorderStart_nested {p : List Symb} {i b1 b2 : Nat}
    (h1 : isBorderStart p i b1) (h2 : isBorderStart p i b2) (hlt : b1 < b2) :
    isBorderStart p b1 b2 := by
  obtain ⟨hib1, hb1m, hpm1⟩ := h1
  obtain ⟨hib2, hb2m, hpm2⟩ := h2
  refine ⟨hlt, hb2m, fun u hu => ?_⟩
  rw [← hpm1 u (by omega), hpm2 u hu]

theorem isBorderStart_cons_of {p : List Symb} {i b : Nat}
    (hi : 1 ≤ i) (hb : b < p.length) (h : isBorderStart p (i-1) b) :
    isBorderStart p i (b+1) ∧ p.getD b 0 = p.getD (i-1) 0 := by
  obtain ⟨hib, hbm, hpm⟩ := h
  constructor
  · refine ⟨by omega, by omega, fun u hu => ?_⟩
    have hx := hpm (u+1) (by omega)
    have e1 : i - 1 + (u + 1) = i + u := by omega
    have e2 : b + (u + 1) = b + 1 + u := by omega
    rwa [e1, e2] at hx
  · have h0 := hpm 0 (by omega)
    simpa using h0.symm

theorem isBorderStart_of_cons {p : List Symb} {i b : Nat}
    (hi : 1 ≤ i) (hb1 : 1 ≤ b) (h : isBorderStart p i b)
    (hc : p.getD (b-1) 0 = p.getD (i-1) 0) :
    isBorderStart p (i-1) (b-1) := by
  obtain ⟨hib, hbm, hpm⟩ := h
  refine ⟨by omega, by omega, fun u hu => ?_⟩
  cases u with
  | zero => simpa using hc.symm
  | succ v =>
    have hx := hpm v (by omega)
    have e1 : i - 1 + (v+1) = i + v := by omega
    have e2 : b - 1 + (v+1) = b + v := by omega
    rw [e1, e2]
    exact hx

theorem gsInnerLoop_exit (pattern : List Symb) (m fuel : Nat) (st : GSState)
    (hc : ¬(st.j ≤ m ∧ pattern.getD (st.i - 1) 0 ≠ pattern.getD (st.j - 1) 0)) :
    gsInnerLoop pattern m (fuel+1) st = st := by
  simp only [gsInnerLoop, if_neg hc]

theorem gsInnerLoop_step_write (pattern : List Symb) (m fuel : Nat) (st : GSState)
    (hc : st.j ≤ m ∧ pattern.getD (st.i - 1) 0 ≠ pattern.getD (st.j - 1) 0)
    (hw : st.gs.getD st.j 0 = 0) :
    gsInnerLoop pattern m (fuel+1) st =
      gsInnerLoop pattern m fuel
        { bp := st.bp, gs := st.gs.set st.j ((st.j : Int) - (st.i : Int)),
          i := st.i, j := st.bp.getD st.j 0, writes := st.writes ++ [st.j] } := by
  simp only [gsInnerLoop, if_pos hc, if_pos hw]

theorem gsInnerLoop_step_skip (pattern : List Symb) (m fuel : Nat) (st : GSState)
    (hc : st.j ≤ m ∧ pattern.getD (st.i - 1) 0 ≠ pattern.getD (st.j - 1) 0)
    (hw : ¬ st.gs.getD st.j 0 = 0) :
    gsInnerLoop pattern m (fuel+1) st =
      gsInnerLoop pattern m fuel
        { bp := st.bp, gs := st.gs, i := st.i, j := st.bp.getD st.j 0,
          writes := st.writes } := by
  simp only [gsInnerLoop, if_neg hw, if_pos hc]

theorem gsInnerLoop_bp_i (pattern : List Symb) (m : Nat) :
    ∀ fuel st, (gsInnerLoop pattern m fuel st).bp = st.bp ∧
      (gsInnerLoop pattern m fuel st).i = st.i := by
  intro fuel
  induction fuel with
  | zero => intro st; exact ⟨rfl, rfl⟩
  | succ f ih =>
    intro st
    by_cases hc : st.j ≤ m ∧ pattern.getD (st.i - 1) 0 ≠ pattern.getD (st.j - 1) 0
    · by_cases hw : st.gs.getD st.j 0 = 0
      · rw [gsInnerLoop_step_write pattern m f st hc hw]
        exact ih _
      · rw [gsInnerLoop_step_skip pattern m f st hc hw]
        exact ih _
    · rw [gsInnerLoop_exit pattern m f st hc]
      exact ⟨rfl, rfl⟩

theorem inner_j_facts (p : List Symb) {gs0 : List Int} {i : Nat} {st : GSState}
    (hbp : ∀ k, i ≤ k → k ≤ p.length → isWidestBorderPos p k (st.bp.getD k 0))
    (inv : InnerInv p i gs0 st) (hjm : st.j ≤ p.length) :
    st.j < st.bp.getD st.j 0 ∧ st.bp.getD st.j 0 ≤ p.length + 1 ∧
    (st.bp.getD st.j 0 ≤ p.length → isBorderStart p i (st.bp.getD st.j 0)) ∧
    (∀ k, isBorderStart p i k → st.j < k → st.bp.getD st.j 0 ≤ k) := by
  have hij := inv.hij
  rcases Nat.lt_or_ge st.j p.length with hlt | hge
  · have hw := (hbp st.j (Nat.le_of_lt hij) hjm).1 hlt
    refine ⟨hw.1.1, le_trans (isBorderStart_le hw.1) (by omega), ?_, ?_⟩
    · exact fun _ => isBorderStart_trans (inv.hjb hjm) hw.1
    · exact fun k hk hgtk => hw.2 k (isBorderStart_nested (inv.hjb hjm) hk hgtk)
  · have hje : st.j = p.length := Nat.le_antisymm hjm hge
    have hsent := (hbp st.j (Nat.le_of_lt hij) hjm).2 hje
    refine ⟨by omega, by omega, by intro h; omega, ?_⟩
    intro k hk hgtk
    have := isBorderStart_le hk
    omega

theorem innerInv_step_write (p : List Symb) (gs0 : List Int) (i : Nat)
    (hlen0 : gs0.length = p.length + 1)
    (_hform0 : ∀ k, k ≤ p.length → gs0.getD k 0 ≠ 0 →
      ∃ c, i < c ∧ c ≤ p.length ∧ c < k ∧ gs0.getD k 0 = (k : Int) - (c : Int))
    (st : GSState)
    (hbp : ∀ k, i ≤ k → k ≤ p.length → isWidestBorderPos p k (st.bp.getD k 0))
    (inv : InnerInv p i gs0 st) (hjm : st.j ≤ p.length)
    (hne : p.getD (i - 1) 0 ≠ p.getD (st.j - 1) 0)
    (hw : st.gs.getD st.j 0 = 0) :
    InnerInv p i gs0
      { bp := st.bp, gs := st.gs.set st.j ((st.j : Int) - (st.i : Int)),
        i := st.i, j := st.bp.getD st.j 0, writes := st.writes ++ [st.j] } := by
  obtain ⟨hgt, hle, hbnew, hmin2⟩ := inner_j_facts p hbp inv hjm
  have hiEq := inv.hiEq
  have hjlt : st.j < st.gs.length := by rw [inv.hgsLen, hlen0]; omega
  have hval : ((st.j : Int) - (st.i : Int)) = (st.j : Int) - (i : Int) := by rw [hiEq]
  have hvalpos : 0 < (st.j : Int) - (i : Int) := by
    have := inv.hij
    omega
  refine ⟨hiEq, inv.hi1, inv.him, lt_trans inv.hij hgt, hle, hbnew, ?_, ?_, ?_, ?_, ?_, ?_, ?_⟩
  · -- hmin
    intro b hb hmatch
    have hbj := inv.hmin b hb hmatch
    rcases Nat.eq_or_lt_of_le hbj with he | hlt
    · exact absurd (by rw [← he] at hmatch; exact hmatch.symm) hne
    · exact hmin2 b hb hlt
  · -- hgsLen
    simpa [List.length_set] using inv.hgsLen
  · -- hpres
    intro k hk0
    have hkne : k ≠ st.j := fun he => hk0 (by rw [← inv.hpres k hk0, he]; exact hw)
    show (st.gs.set st.j _).getD k 0 = gs0.getD k 0
    rw [getD_set_ne _ _ _ _ _ (Ne.symm hkne)]
    exact inv.hpres k hk0
  · -- hnew
    intro k hkdiff
    dsimp only at hkdiff ⊢
    by_cases hk : k = st.j
    · subst hk
      have hg0 : gs0.getD st.j 0 = 0 := by
        by_contra h0
        exact h0 ((inv.hpres st.j h0).symm.trans hw)
      refine ⟨hg0, ?_, inv.hij, hjm⟩
      rw [getD_set_self _ _ _ _ hjlt, hval]
    · rw [getD_set_ne _ _ _ _ _ (Ne.symm hk)] at hkdiff ⊢
      exact inv.hnew k hkdiff
  · -- hdone2
    intro k hkm hbk hnek hklt
    dsimp only at hklt ⊢
    rcases lt_trichotomy k st.j with h | h | h
    · rw [getD_set_ne _ _ _ _ _ (by omega : st.j ≠ k)]
      exact inv.hdone2 k hkm hbk hnek h
    · subst h
      rw [getD_set_self _ _ _ _ hjlt, hval]
      exact ⟨ne_of_gt hvalpos, le_refl _⟩
    · exact absurd (hmin2 k hbk h) (by omega)
  · -- hwnd
    dsimp only
    rw [List.nodup_append]
    refine ⟨inv.hwnd, List.nodup_singleton _, ?_⟩
    intro a ha hb
    rw [List.mem_singleton] at hb
    subst hb
    exact ((inv.hwmem st.j).mp ha).2 hw
  · -- hwmem
    intro k
    dsimp only
    rw [List.mem_append, List.mem_singleton, inv.hwmem k]
    by_cases hk : k = st.j
    · subst hk
      rw [getD_set_self _ _ _ _ hjlt]
      constructor
      · intro _
        exact ⟨hjm, by rw [hval]; exact ne_of_gt hvalpos⟩
      · intro _
        right
        rfl
    · rw [getD_set_ne _ _ _ _ _ (Ne.symm hk)]
      simp [hk]

theorem innerInv_step_skip (p : List Symb) (gs0 : List Int) (i : Nat)
    (hform0 : ∀ k, k ≤ p.length → gs0.getD k 0 ≠ 0 →
      ∃ c, i < c ∧ c ≤ p.length ∧ c < k ∧ gs0.getD k 0 = (k : Int) - (c : Int))
    (st : GSState)
    (hbp : ∀ k, i ≤ k → k ≤ p.length → isWidestBorderPos p k (st.bp.getD k 0))
    (inv : InnerInv p i gs0 st) (hjm : st.j ≤ p.length)
    (hne : p.getD (i - 1) 0 ≠ p.getD (st.j - 1) 0)
    (hw : ¬ st.gs.getD st.j 0 = 0) :
    InnerInv p i gs0
      { bp := st.bp, gs := st.gs, i := st.i, j := st.bp.getD st.j 0,
        writes := st.writes } := by
  obtain ⟨hgt, hle, hbnew, hmin2⟩ := inner_j_facts p hbp inv hjm
  refine ⟨inv.hiEq, inv.hi1, inv.him, lt_trans inv.hij hgt, hle, hbnew, ?_, inv.hgsLen,
    inv.hpres, inv.hnew, ?_, inv.hwnd, inv.hwmem⟩
  · -- hmin
    intro b hb hmatch
    have hbj := inv.hmin b hb hmatch
    rcases Nat.eq_or_lt_of_le hbj with he | hlt
    · exact absurd (by rw [← he] at hmatch; exact hmatch.symm) hne
    · exact hmin2 b hb hlt
  · -- hdone2
    intro k hkm hbk hnek hklt
    dsimp only at hklt ⊢
    rcases lt_trichotomy k st.j with h | h | h
    · exact inv.hdone2 k hkm hbk hnek h
    · subst h
      refine ⟨hw, ?_⟩
      by_cases hch : st.gs.getD st.j 0 = gs0.getD st.j 0
      · obtain ⟨c, hci, hcm, hck, hcv⟩ := hform0 st.j hjm (by rw [← hch]; exact hw)
        rw [hch, hcv]
        omega
      · obtain ⟨_, hv, _, _⟩ := inv.hnew st.j hch
        rw [hv]
    · exact absurd (hmin2 k hbk h) (by omega)

theorem gsInnerLoop_spec (p : List Symb) (gs0 : List Int) (i : Nat)
    (hlen0 : gs0.length = p.length + 1)
    (hform0 : ∀ k, k ≤ p.length → gs0.getD k 0 ≠ 0 →
      ∃ c, i < c ∧ c ≤ p.length ∧ c < k ∧ gs0.getD k 0 = (k : Int) - (c : Int)) :
    ∀ fuel st,
      (∀ k, i ≤ k → k ≤ p.length → isWidestBorderPos p k (st.bp.getD k 0)) →
      InnerInv p i gs0 st →
      p.length + 2 ≤ fuel + st.j →
      InnerInv p i gs0 (gsInnerLoop p p.length fuel st) ∧
      ¬((gsInnerLoop p p.length fuel st).j ≤ p.length ∧
        p.getD (i - 1) 0 ≠ p.getD ((gsInnerLoop p p.length fuel st).j - 1) 0) := by
  intro fuel
  induction fuel with
  | zero =>
    intro st hbp inv hfuel
    exact absurd inv.hjm1 (by omega)
  | succ f ih =>
    intro st hbp inv hfuel
    by_cases hc : st.j ≤ p.length ∧ p.getD (st.i - 1) 0 ≠ p.getD (st.j - 1) 0
    · have hne : p.getD (i - 1) 0 ≠ p.getD (st.j - 1) 0 := by
        rw [← inv.hiEq]
        exact hc.2
      obtain ⟨hjgt, -, -, -⟩ := inner_j_facts p hbp inv hc.1
      by_cases hw : st.gs.getD st.j 0 = 0
      · rw [gsInnerLoop_step_write p p.length f st hc hw]
        refine ih _ hbp (innerInv_step_write p gs0 i hlen0 hform0 st hbp inv hc.1 hne hw) ?_
        dsimp only
        omega
      · rw [gsInnerLoop_step_skip p p.length f st hc hw]
        refine ih _ hbp (innerInv_step_skip p gs0 i hform0 st hbp inv hc.1 hne hw) ?_
        dsimp only
        omega
    · rw [gsInnerLoop_exit p p.length f st hc]
      rw [inv.hiEq] at hc
      exact ⟨inv, hc⟩

theorem gsOuterLoop_exit (pattern : List Symb) (m fuel : Nat) (st : GSState)
    (hc : ¬ 0 < st.i) : gsOuterLoop pattern m (fuel+1) st = st := by
  simp only [gsOuterLoop, if_neg hc]

theorem gsOuterLoop_step (pattern : List Symb) (m fuel : Nat) (st : GSState)
    (hc : 0 < st.i) :
    gsOuterLoop pattern m (fuel+1) st =
      gsOuterLoop pattern m fuel
        { bp := (gsInnerLoop pattern m (m+2) st).bp.set
            ((gsInnerLoop pattern m (m+2) st).i - 1)
            ((gsInnerLoop pattern m (m+2) st).j - 1),
          gs := (gsInnerLoop pattern m (m+2) st).gs,
          i := (gsInnerLoop pattern m (m+2) st).i - 1,
          j := (gsInnerLoop pattern m (m+2) st).j - 1,
          writes := (gsInnerLoop pattern m (m+2) st).writes } := by
  simp only [gsOuterLoop, if_pos hc]

theorem innerInv_init (p : List Symb) (st : GSState) (inv : OuterInv p st) (hc : 0 < st.i) :
    InnerInv p st.i st.gs st := by
  have hwb := inv.hbp st.i (le_refl _) inv.hi
  rw [← inv.hj] at hwb
  refine ⟨rfl, hc, inv.hi, ?_, ?_, ?_, ?_, rfl, fun k _ => rfl, fun k hk => absurd rfl hk,
    ?_, inv.hwnd, inv.hwmem⟩
  · -- hij
    rcases Nat.lt_or_ge st.i p.length with h | h
    · exact (hwb.1 h).1.1
    · have hie : st.i = p.length := Nat.le_antisymm inv.hi h
      have := hwb.2 hie
      omega
  · -- hjm1
    rcases Nat.lt_or_ge st.i p.length with h | h
    · have := isBorderStart_le (hwb.1 h).1
      omega
    · have hie : st.i = p.length := Nat.le_antisymm inv.hi h
      have := hwb.2 hie
      omega
  · -- hjb
    intro hjle
    rcases Nat.lt_or_ge st.i p.length with h | h
    · exact (hwb.1 h).1
    · have hie : st.i = p.length := Nat.le_antisymm inv.hi h
      have := hwb.2 hie
      omega
  · -- hmin
    intro b hb _
    rcases Nat.lt_or_ge st.i p.length with h | h
    · exact (hwb.1 h).2 b hb
    · have hie : st.i = p.length := Nat.le_antisymm inv.hi h
      have h1 := isBorderStart_lt hb
      have h2 := isBorderStart_le hb
      omega
  · -- hdone2
    intro k hkm hbk hnek hklt
    rcases Nat.lt_or_ge st.i p.length with h | h
    · exact absurd ((hwb.1 h).2 k hbk) (by omega)
    · have hie : st.i = p.length := Nat.le_antisymm inv.hi h
      have h1 := isBorderStart_lt hbk
      have h2 := isBorderStart_le hbk
      omega

theorem gsOuterLoop_spec (p : List Symb) :
    ∀ fuel st, OuterInv p st → st.i = fuel →
      OuterInv p (gsOuterLoop p p.length fuel st) ∧
      (gsOuterLoop p p.length fuel st).i = 0 := by
  intro fuel
  induction fuel with
  | zero =>
    intro st inv hieq
    exact ⟨inv, hieq⟩
  | succ f ih =>
    intro st inv hieq
    have hc : 0 < st.i := by omega
    have hm1 : 1 ≤ p.length := le_trans hc inv.hi
    have inv0 := innerInv_init p st inv hc
    obtain ⟨inv1, hexit⟩ := gsInnerLoop_spec p st.gs st.i inv.hgsLen inv.hform
      (p.length + 2) st inv.hbp inv0 (by omega)
    have him := inv.hi
    rw [gsOuterLoop_step p p.length f st hc]
    set st1 := gsInnerLoop p p.length (p.length + 2) st with hst1def
    obtain ⟨hbp1, hi1eq⟩ := gsInnerLoop_bp_i p p.length (p.length + 2) st
    rw [← hst1def] at hbp1 hi1eq
    have hij1 := inv1.hij
    have hjm11 := inv1.hjm1
    have hilt : st.i - 1 < p.length := by omega
    have hwb' : isWidestBorderPos p (st.i - 1) (st1.j - 1) := by
      constructor
      · intro _
        rcases Nat.lt_or_ge p.length st1.j with hgt | hle
        · have hsent : st1.j = p.length + 1 := by
            have := inv1.hjm1
            omega
          constructor
          · rw [hsent]
            simpa using isBorderStart_end p (st.i - 1) hilt
          · intro b' hb'
            rcases Nat.lt_or_ge b' p.length with hblt | hbge
            · exfalso
              obtain ⟨hbb, hbc⟩ := isBorderStart_cons_of (by omega) hblt hb'
              have := inv1.hmin (b'+1) hbb (by simpa using hbc)
              omega
            · have := isBorderStart_le hb'
              omega
        · have hmatch : p.getD (st.i - 1) 0 = p.getD (st1.j - 1) 0 := by
            by_contra hne
            exact hexit ⟨hle, hne⟩
          constructor
          · exact isBorderStart_of_cons (by omega) (by omega) (inv1.hjb hle) hmatch.symm
          · intro b' hb'
            rcases Nat.lt_or_ge b' p.length with hblt | hbge
            · obtain ⟨hbb, hbc⟩ := isBorderStart_cons_of (by omega) hblt hb'
              have := inv1.hmin (b'+1) hbb (by simpa using hbc)
              omega
            · have := isBorderStart_le hb'
              omega
      · intro h
        omega
    refine (ih _ ⟨?_, ?_, ?_, ?_, ?_, ?_, ?_, ?_, ?_⟩ ?_)
    · -- hi
      dsimp only
      omega
    · -- hbpLen
      dsimp only
      rw [List.length_set, hbp1, inv.hbpLen]
    · -- hgsLen
      dsimp only
      exact inv1.hgsLen.trans inv.hgsLen
    · -- hj
      dsimp only
      rw [getD_set_self _ _ _ _ (by rw [hbp1, inv.hbpLen]; omega)]
    · -- hbp
      intro k hk1 hk2
      dsimp only at hk1 ⊢
      by_cases hkc : k = st1.i - 1
      · subst hkc
        rw [getD_set_self _ _ _ _ (by rw [hbp1, inv.hbpLen]; omega)]
        rw [hi1eq]
        exact hwb'
      · rw [getD_set_ne _ _ _ _ _ (Ne.symm hkc), hbp1]
        exact inv.hbp k (by omega) hk2
    · -- hform
      intro k hkm hknz
      dsimp only at hknz ⊢
      by_cases hch : st1.gs.getD k 0 = st.gs.getD k 0
      · obtain ⟨c, hc1, hc2, hc3, hc4⟩ := inv.hform k hkm (by rwa [hch] at hknz)
        exact ⟨c, by omega, hc2, hc3, by rw [hch]; exact hc4⟩
      · obtain ⟨hz, hv, hik, hkm'⟩ := inv1.hnew k hch
        exact ⟨st.i, by omega, inv.hi, hik, hv⟩
    · -- hdone
      intro c k hc1 hc2 hkm hbk hnek
      dsimp only at hc1 ⊢
      rcases Nat.lt_or_ge st.i c with h | h
      · obtain ⟨hnz, hbd⟩ := inv.hdone c k h hc2 hkm hbk hnek
        rw [inv1.hpres k hnz]
        exact ⟨hnz, hbd⟩
      · have hceq : c = st.i := by omega
        subst hceq
        rcases lt_trichotomy k st1.j with hk | hk | hk
        · exact inv1.hdone2 k hkm hbk hnek hk
        · exfalso
          rcases Nat.lt_or_ge p.length st1.j with hgt | hle
          · omega
          · have hmatch : p.getD (st.i - 1) 0 = p.getD (st1.j - 1) 0 := by
              by_contra hne
              exact hexit ⟨hle, hne⟩
            rw [← hk] at hmatch
            exact hnek hmatch
        · rcases Nat.lt_or_ge p.length st1.j with hgt | hle
          · omega
          · have hmatch : p.getD (st.i - 1) 0 = p.getD (st1.j - 1) 0 := by
              by_contra hne
              exact hexit ⟨hle, hne⟩
            have hbj : isBorderStart p st.i st1.j := inv1.hjb hle
            have hnest : isBorderStart p st1.j k := isBorderStart_nested hbj hbk hk
            have hnej : p.getD (st1.j - 1) 0 ≠ p.getD (k-1) 0 := by
              rw [← hmatch]
              exact hnek
            obtain ⟨hnz, hbd⟩ := inv.hdone st1.j k inv1.hij hle hkm hnest hnej
            rw [inv1.hpres k hnz]
            refine ⟨hnz, ?_⟩
            have hcast : ((st.i : Nat) : Int) < ((st1.j : Nat) : Int) := by exact_mod_cast inv1.hij
            omega
    · -- hwnd
      exact inv1.hwnd
    · -- hwmem
      exact inv1.hwmem
    · -- new counter equals f
      dsimp only
      omega

theorem getD_def_of_le {α : Type*} (l : List α) (d : α) (i : Nat) (h : l.length ≤ i) :
    l.getD i d = d := by
  rw [List.getD_eq_getElem?_getD, List.getElem?_eq_none (by omega), Option.getD_none]

theorem getD_replicate_zero (n i : Nat) :
    (List.replicate n (0:Int)).getD i 0 = 0 := by
  rcases Nat.lt_or_ge i n with h | h
  · exact getD_replicate n 0 0 i h
  · exact getD_def_of_le _ _ _ (by simpa using h)

theorem outerInv_init (p : List Symb) :
    OuterInv p
      { bp := (List.replicate (p.length+1) 0).set p.length (p.length+1),
        gs := List.replicate (p.length+1) 0, i := p.length, j := p.length + 1,
        writes := [] } := by
  refine ⟨le_refl _, by simp, by simp, ?_, ?_, ?_, ?_, List.nodup_nil, ?_⟩
  · -- hj
    dsimp only
    rw [getD_set_self _ _ _ _ (by simp)]
  · -- hbp
    intro k hk1 hk2
    dsimp only at hk1 ⊢
    have hkm : k = p.length := le_antisymm hk2 hk1
    subst hkm
    constructor
    · intro h
      exact absurd h (lt_irrefl _)
    · intro _
      rw [getD_set_self _ _ _ _ (by simp)]
  · -- hform
    intro k hkm hknz
    dsimp only at hknz
    exact absurd (getD_replicate_zero _ _) hknz
  · -- hdone
    intro c k hc1 hc2
    dsimp only at hc1
    exact absurd hc2 (by omega)
  · -- hwmem
    intro k
    dsimp only
    simp [getD_replicate_zero]

theorem gsPass1_final (p : List Symb) :
    OuterInv p (gsOuterLoop p p.length p.length
      { bp := (List.replicate (p.length+1) 0).set p.length (p.length+1),
        gs := List.replicate (p.length+1) 0, i := p.length, j := p.length + 1,
        writes := [] }) ∧
    (gsOuterLoop p p.length p.length
      { bp := (List.replicate (p.length+1) 0).set p.length (p.length+1),
        gs := List.replicate (p.length+1) 0, i := p.length, j := p.length + 1,
        writes := [] }).i = 0 :=
  gsOuterLoop_spec p p.length _ (outerInv_init p) rfl

theorem gsFillLoop_step_write (bp : List Nat) (fuel i j : Nat) (gs : List Int) (w : List Nat)
    (hw : gs.getD i 0 = 0) :
    gsFillLoop bp (fuel+1) i j gs w =
      gsFillLoop bp fuel (i+1) (if i = j then bp.getD j 0 else j)
        (gs.set i (Int.ofNat j)) (w ++ [i]) := by
  simp only [gsFillLoop, if_pos hw]

theorem gsFillLoop_step_skip (bp : List Nat) (fuel i j : Nat) (gs : List Int) (w : List Nat)
    (hw : ¬ gs.getD i 0 = 0) :
    gsFillLoop bp (fuel+1) i j gs w =
      gsFillLoop bp fuel (i+1) (if i = j then bp.getD j 0 else j) gs w := by
  simp only [gsFillLoop, if_neg hw]

theorem gsFillLoop_spec (p : List Symb) (bpF : List Nat)
    (hbp : ∀ k, k ≤ p.length → isWidestBorderPos p k (bpF.getD k 0)) :
    ∀ fuel i j gs w,
      fuel + i = p.length + 1 →
      i ≤ j →
      (i ≤ p.length → j ≤ p.length) →
      (j ≤ p.length → isBorderStart p 0 j) →
      (∀ b, isBorderStart p 0 b → i ≤ b → j ≤ b) →
      gs.length = p.length + 1 →
      w.Nodup →
      (∀ k, k ∈ w ↔ (k ≤ p.length ∧ gs.getD k 0 ≠ 0)) →
      ((gsFillLoop bpF fuel i j gs w).1.length = p.length + 1 ∧
       (∀ k, gs.getD k 0 ≠ 0 → (gsFillLoop bpF fuel i j gs w).1.getD k 0 = gs.getD k 0) ∧
       (∀ k, k < i → (gsFillLoop bpF fuel i j gs w).1.getD k 0 = gs.getD k 0) ∧
       (∀ k, i ≤ k → k ≤ p.length → gs.getD k 0 = 0 →
         ∃ b : Nat, (gsFillLoop bpF fuel i j gs w).1.getD k 0 = (b : Int) ∧
           isBorderStart p 0 b ∧ k ≤ b ∧
           ∀ b', isBorderStart p 0 b' → k ≤ b' → b ≤ b') ∧
       (gsFillLoop bpF fuel i j gs w).2.Nodup ∧
       (∀ k, k ∈ (gsFillLoop bpF fuel i j gs w).2 ↔
         (k ≤ p.length ∧ (gsFillLoop bpF fuel i j gs w).1.getD k 0 ≠ 0))) := by
  intro fuel
  induction fuel with
  | zero =>
    intro i j gs w hfi hij hjm hjb hmin hlen hwnd hwmem
    refine ⟨hlen, fun k _ => rfl, fun k _ => rfl, ?_, hwnd, hwmem⟩
    intro k hk1 hk2 _
    omega
  | succ f ih =>
    intro i j gs w hfi hij hjm hjb hmin hlen hwnd hwmem
    have him : i ≤ p.length := by omega
    have hjle : j ≤ p.length := hjm him
    have hjnew : i + 1 ≤ (if i = j then bpF.getD j 0 else j) ∧
        (i + 1 ≤ p.length → (if i = j then bpF.getD j 0 else j) ≤ p.length) ∧
        ((if i = j then bpF.getD j 0 else j) ≤ p.length →
          isBorderStart p 0 (if i = j then bpF.getD j 0 else j)) ∧
        (∀ b, isBorderStart p 0 b → i + 1 ≤ b →
          (if i = j then bpF.getD j 0 else j) ≤ b) := by
      by_cases hje : i = j
      · rw [if_pos hje]
        subst hje
        rcases Nat.lt_or_ge i p.length with hilt | hige
        · have hw1 := (hbp i (le_of_lt hilt)).1 hilt
          refine ⟨hw1.1.1, fun _ => isBorderStart_le hw1.1, ?_, ?_⟩
          · exact fun _ => isBorderStart_trans (hjb hjle) hw1.1
          · intro b hb hib
            exact hw1.2 b (isBorderStart_nested (hjb hjle) hb (by omega))
        · have hie : i = p.length := le_antisymm him hige
          have hsent := (hbp i him).2 hie
          rw [hsent]
          refine ⟨by omega, by omega, by intro h; omega, ?_⟩
          intro b hb hib
          have := isBorderStart_le hb
          omega
      · rw [if_neg hje]
        refine ⟨by omega, fun _ => hjle, hjb, ?_⟩
        intro b hb hib
        exact hmin b hb (by omega)
    by_cases hw : gs.getD i 0 = 0
    · -- write branch
      have hj1 : 1 ≤ j := by
        have := isBorderStart_lt (hjb hjle)
        omega
      have hinw : i ∉ w := fun hmem => ((hwmem i).mp hmem).2 hw
      have hilen : i < gs.length := by omega
      rw [gsFillLoop_step_write bpF f i j gs w hw]
      have hwnd' : (w ++ [i]).Nodup := by
        rw [List.nodup_append]
        refine ⟨hwnd, List.nodup_singleton _, ?_⟩
        intro a ha hb
        rw [List.mem_singleton] at hb
        subst hb
        exact hinw ha
      have hwmem' : ∀ k, k ∈ w ++ [i] ↔
          (k ≤ p.length ∧ (gs.set i (Int.ofNat j)).getD k 0 ≠ 0) := by
        intro k
        rw [List.mem_append, List.mem_singleton, hwmem k]
        by_cases hk : k = i
        · subst hk
          rw [getD_set_self _ _ _ _ hilen]
          constructor
          · intro _
            refine ⟨him, ?_⟩
            simp only [Int.ofNat_eq_coe, ne_eq, Nat.cast_eq_zero]
            omega
          · intro _
            right
            rfl
        · rw [getD_set_ne _ _ _ _ _ (Ne.symm hk)]
          simp [hk]
      obtain ⟨c1, c2, c3, c4, c5, c6⟩ := ih (i+1) (if i = j then bpF.getD j 0 else j)
        (gs.set i (Int.ofNat j)) (w ++ [i]) (by omega) hjnew.1 hjnew.2.1 hjnew.2.2.1
        hjnew.2.2.2 (by rw [List.length_set]; exact hlen) hwnd' hwmem'
      refine ⟨c1, ?_, ?_, ?_, c5, ?_⟩
      · intro k hk0
        have hkne : k ≠ i := fun he => hk0 (by rw [he]; exact hw)
        rw [c2 k (by rwa [getD_set_ne _ _ _ _ _ (Ne.symm hkne)]),
          getD_set_ne _ _ _ _ _ (Ne.symm hkne)]
      · intro k hk
        rw [c3 k (by omega), getD_set_ne _ _ _ _ _ (by omega)]
      · intro k hk1 hk2 hk0
        rcases Nat.eq_or_lt_of_le hk1 with he | hlt
        · subst he
          refine ⟨j, ?_, hjb hjle, hij, fun b' hb' hkb' => hmin b' hb' hkb'⟩
          rw [c3 i (by omega), getD_set_self _ _ _ _ hilen]
          exact rfl
        · obtain ⟨b, hb1, hb2, hb3, hb4⟩ := c4 k hlt hk2
            (by rw [getD_set_ne _ _ _ _ _ (by omega)]; exact hk0)
          exact ⟨b, hb1, hb2, hb3, hb4⟩
      · intro k
        exact c6 k
    · -- skip branch
      rw [gsFillLoop_step_skip bpF f i j gs w hw]
      obtain ⟨c1, c2, c3, c4, c5, c6⟩ := ih (i+1) (if i = j then bpF.getD j 0 else j)
        gs w (by omega) hjnew.1 hjnew.2.1 hjnew.2.2.1 hjnew.2.2.2 hlen hwnd hwmem
      refine ⟨c1, c2, ?_, ?_, c5, c6⟩
      · intro k hk
        exact c3 k (by omega)
      · intro k hk1 hk2 hk0
        rcases Nat.eq_or_lt_of_le hk1 with he | hlt
        · subst he
          exact absurd hk0 hw
        · exact c4 k hlt hk2 hk0

theorem gsTable_facts (p : List Symb) (hm : 1 ≤ p.length) :
    (precomputeGoodSuffixTable p).length = p.length + 1 ∧
    (∀ k, k ≤ p.length → 1 ≤ (precomputeGoodSuffixTable p).getD k 0 ∧
      (precomputeGoodSuffixTable p).getD k 0 ≤ (p.length : Int)) ∧
    (∃ b : Nat, (precomputeGoodSuffixTable p).getD 0 0 = (b : Int) ∧ isBorderStart p 0 b ∧
      ∀ b', isBorderStart p 0 b' → b ≤ b') ∧
    (∀ k e, k ≤ p.length → 1 ≤ e → validShift p k e →
      (precomputeGoodSuffixTable p).getD k 0 ≤ (e : Int)) ∧
    (precomputeGoodSuffixTableFull p).2.2.Nodup ∧
    (∀ k, k ∈ (precomputeGoodSuffixTableFull p).2.2 ↔ k ≤ p.length) := by
  obtain ⟨invF, hiF⟩ := gsPass1_final p
  set T := gsOuterLoop p p.length p.length
    { bp := (List.replicate (p.length+1) 0).set p.length (p.length+1),
      gs := List.replicate (p.length+1) 0, i := p.length, j := p.length + 1,
      writes := [] } with hT
  have e1 : precomputeGoodSuffixTable p =
      (gsFillLoop T.bp (p.length+1) 0 (T.bp.getD 0 0) T.gs T.writes).1 := by
    rw [hT]
    exact rfl
  have e2 : (precomputeGoodSuffixTableFull p).2.2 =
      (gsFillLoop T.bp (p.length+1) 0 (T.bp.getD 0 0) T.gs T.writes).2 := by
    rw [hT]
    exact rfl
  have hbpF : ∀ k, k ≤ p.length → isWidestBorderPos p k (T.bp.getD k 0) := by
    intro k hk
    exact invF.hbp k (by rw [hiF]; exact Nat.zero_le k) hk
  have hw0 := (hbpF 0 (Nat.zero_le _)).1 (by omega)
  obtain ⟨c1, c2, c3, c4, c5, c6⟩ := gsFillLoop_spec p T.bp hbpF (p.length+1) 0
    (T.bp.getD 0 0) T.gs T.writes (by omega) (Nat.zero_le _)
    (fun _ => isBorderStart_le hw0.1) (fun _ => hw0.1) (fun b hb _ => hw0.2 b hb)
    invF.hgsLen invF.hwnd invF.hwmem
  have hbnd : ∀ k, k ≤ p.length →
      1 ≤ (precomputeGoodSuffixTable p).getD k 0 ∧
      (precomputeGoodSuffixTable p).getD k 0 ≤ (p.length : Int) := by
    intro k hk
    by_cases hz : T.gs.getD k 0 = 0
    · obtain ⟨b, hb1, hb2, hb3, hb4⟩ := c4 k (Nat.zero_le _) hk hz
      rw [e1, hb1]
      have h1 := isBorderStart_lt hb2
      have h2 := isBorderStart_le hb2
      omega
    · obtain ⟨c, hc1, hc2, hc3, hc4⟩ := invF.hform k hk hz
      rw [hiF] at hc1
      rw [e1, c2 k hz, hc4]
      omega
  refine ⟨by rw [e1]; exact c1, hbnd, ?_, ?_, by rw [e2]; exact c5, ?_⟩
  · -- slot 0
    have hz0 : T.gs.getD 0 0 = 0 := by
      by_contra h0
      obtain ⟨c, hc1, hc2, hc3, hc4⟩ := invF.hform 0 (Nat.zero_le _) h0
      omega
    obtain ⟨b, hb1, hb2, hb3, hb4⟩ := c4 0 (le_refl _) (Nat.zero_le _) hz0
    exact ⟨b, by rw [e1]; exact hb1, hb2, fun b' hb' => hb4 b' hb' (Nat.zero_le _)⟩
  · -- lower bound against every valid shift
    intro k e hk he hv
    rcases Nat.lt_or_ge p.length e with hgt | hle
    · have := (hbnd k hk).2
      omega
    · rcases Nat.lt_or_ge e k with hek | hke
      · -- e < k : case-1 configuration at c = k - e
        have hbord : isBorderStart p (k - e) k := by
          refine ⟨by omega, hk, fun u hu => ?_⟩
          have hx := hv.1 (k + u) (by omega) (by omega) (by omega)
          have e3 : k + u - e = k - e + u := by omega
          rwa [e3] at hx
        have hne2 : p.getD (k - e - 1) 0 ≠ p.getD (k - 1) 0 := by
          have hx := hv.2 hek
          have e4 : k - 1 - e = k - e - 1 := by omega
          rwa [e4] at hx
        have hd := invF.hdone (k - e) k (by rw [hiF]; omega) (by omega) hk hbord hne2
        rw [e1, c2 k hd.1]
        have hb2 := hd.2
        omega
      · -- k ≤ e ≤ m : e is a border start of the whole pattern
        have hbord0 : isBorderStart p 0 e := by
          refine ⟨by omega, hle, fun u hu => ?_⟩
          have hx := hv.1 (e + u) (by omega) (by omega) (by omega)
          have e5 : e + u - e = u := by omega
          rw [e5] at hx
          simpa using hx
        by_cases hz : T.gs.getD k 0 = 0
        · obtain ⟨b, hb1, hb2, hb3, hb4⟩ := c4 k (Nat.zero_le _) hk hz
          rw [e1, hb1]
          have := hb4 e hbord0 hke
          omega
        · obtain ⟨c, hc1, hc2, hc3, hc4⟩ := invF.hform k hk hz
          rw [hiF] at hc1
          rw [e1, c2 k hz, hc4]
          omega
  · -- write log holds exactly the slots 0..m
    intro k
    rw [e2, c6 k]
    constructor
    · intro hk
      exact hk.1
    · intro hk
      have := (hbnd k hk).1
      rw [e1] at this
      exact ⟨hk, by omega⟩

theorem getD_append_length {α : Type*} (l : List α) (x : α) (d : α) :
    (l ++ [x]).getD l.length d = x := by
  rw [List.getD_eq_getElem?_getD, List.getElem?_append, if_neg (lt_irrefl _)]
  simp

theorem mismatchAt_none_iff (t pat : List Symb) (s : Nat) :
    ∀ j, (mismatchAt t pat s j = none ↔ ∀ k, k ≤ j → pat.getD k 0 = t.getD (s+k) 0) := by
  intro j
  induction j with
  | zero =>
    constructor
    · intro h k hk
      have hk0 : k = 0 := by omega
      subst hk0
      by_contra hne
      rw [show s + 0 = s from rfl] at hne
      simp only [mismatchAt, if_neg hne] at h
      exact Option.noConfusion h
    · intro h
      have h0 := h 0 (le_refl _)
      rw [show s + 0 = s from rfl] at h0
      simp only [mismatchAt, if_pos h0]
  | succ n ih =>
    constructor
    · intro h k hk
      by_cases hcmp : pat.getD (n+1) 0 = t.getD (s+n+1) 0
      · simp only [mismatchAt, if_pos hcmp] at h
        rcases Nat.lt_or_ge k (n+1) with hlt | hge
        · exact (ih.mp h) k (by omega)
        · have hke : k = n+1 := by omega
          subst hke
          rwa [show s + (n+1) = s+n+1 from rfl]
      · simp only [mismatchAt, if_neg hcmp] at h
        exact Option.noConfusion h
    · intro h
      have hcmp : pat.getD (n+1) 0 = t.getD (s+n+1) 0 := by
        have := h (n+1) (le_refl _)
        rwa [show s + (n+1) = s+n+1 from rfl] at this
      simp only [mismatchAt, if_pos hcmp]
      exact ih.mpr (fun k hk => h k (by omega))

theorem mismatchAt_some_spec (t pat : List Symb) (s : Nat) :
    ∀ j j', mismatchAt t pat s j = some j' →
      j' ≤ j ∧ pat.getD j' 0 ≠ t.getD (s+j') 0 ∧
      ∀ k, j' < k → k ≤ j → pat.getD k 0 = t.getD (s+k) 0 := by
  intro j
  induction j with
  | zero =>
    intro j' h
    by_cases hcmp : pat.getD 0 0 = t.getD s 0
    · simp only [mismatchAt, if_pos hcmp] at h
      exact Option.noConfusion h
    · simp only [mismatchAt, if_neg hcmp] at h
      obtain rfl : j' = 0 := (Option.some_inj.mp h).symm
      refine ⟨le_refl _, ?_, ?_⟩
      · rwa [show s + 0 = s from rfl]
      · intro k hk1 hk2
        omega
  | succ n ih =>
    intro j' h
    by_cases hcmp : pat.getD (n+1) 0 = t.getD (s+n+1) 0
    · simp only [mismatchAt, if_pos hcmp] at h
      obtain ⟨h1, h2, h3⟩ := ih j' h
      refine ⟨by omega, h2, ?_⟩
      intro k hk1 hk2
      rcases Nat.lt_or_ge k (n+1) with hlt | hge
      · exact h3 k hk1 (by omega)
      · have hke : k = n+1 := by omega
        subst hke
        rwa [show s + (n+1) = s+n+1 from rfl]
    · simp only [mismatchAt, if_neg hcmp] at h
      obtain rfl : j' = n+1 := (Option.some_inj.mp h).symm
      refine ⟨le_refl _, by rwa [show s + (n+1) = s+n+1 from rfl], ?_⟩
      intro k hk1 hk2
      omega

theorem occursAt_iff (t pat : List Symb) (i : Nat) :
    occursAt t pat i = true ↔ ∀ k, k < pat.length → pat.getD k 0 = t.getD (i+k) 0 := by
  unfold occursAt
  rw [List.all_eq_true]
  constructor
  · intro h k hk
    exact of_decide_eq_true (h k (List.mem_range.mpr hk))
  · intro h k hk
    exact decide_eq_true (h k (List.mem_range.mp hk))

theorem mem_naiveOccurrences (t pat : List Symb) (q : Nat) :
    q ∈ naiveOccurrences t pat ↔
      (q < t.length - pat.length + 1 ∧ occursAt t pat q = true) := by
  unfold naiveOccurrences
  rw [List.mem_filter, List.mem_range]

theorem naiveOccurrences_pairwise (t pat : List Symb) :
    (naiveOccurrences t pat).Pairwise (· < ·) :=
  List.Pairwise.filter _ (List.pairwise_lt_range _)

theorem filter_lt_step_mem (l : List Nat) : l.Pairwise (· < ·) → ∀ a b, a < b →
    (∀ q ∈ l, a < q → q < b → False) → a ∈ l →
    l.filter (fun q => decide (q < b)) = l.filter (fun q => decide (q < a)) ++ [a] := by
  induction l with
  | nil =>
    intro _ a b _ _ h
    exact absurd h (List.not_mem_nil a)
  | cons x xs ih =>
    intro hl a b hab hmid hmem
    rw [List.pairwise_cons] at hl
    rcases List.mem_cons.mp hmem with he | hm
    · obtain rfl := he
      have h1 : xs.filter (fun q => decide (q < b)) = [] := by
        rw [List.filter_eq_nil_iff]
        intro y hy
        have hay := hl.1 y hy
        simp only [decide_eq_true_eq]
        intro hyb
        exact hmid y (List.mem_cons_of_mem _ hy) hay hyb
      have h2 : xs.filter (fun q => decide (q < a)) = [] := by
        rw [List.filter_eq_nil_iff]
        intro y hy
        have hay := hl.1 y hy
        simp only [decide_eq_true_eq]
        omega
      rw [List.filter_cons_of_pos (by simp only [decide_eq_true_eq]; exact hab),
          List.filter_cons_of_neg (by simp), h1, h2]
      rfl
    · have hxa : x < a := hl.1 a hm
      rw [List.filter_cons_of_pos (by simp only [decide_eq_true_eq]; omega),
          List.filter_cons_of_pos (by simp only [decide_eq_true_eq]; exact hxa),
          ih hl.2 a b hab (fun q hq => hmid q (List.mem_cons_of_mem _ hq)) hm,
          List.cons_append]

theorem filter_lt_step_skip (l : List Nat) : l.Pairwise (· < ·) → ∀ a b, a ≤ b →
    (∀ q ∈ l, a ≤ q → q < b → False) →
    l.filter (fun q => decide (q < b)) = l.filter (fun q => decide (q < a)) := by
  induction l with
  | nil =>
    intro _ a b _ _
    rfl
  | cons x xs ih =>
    intro hl a b hab hmid
    rw [List.pairwise_cons] at hl
    rcases Nat.lt_or_ge x a with hx | hx
    · rw [List.filter_cons_of_pos (by simp only [decide_eq_true_eq]; omega),
          List.filter_cons_of_pos (by simp only [decide_eq_true_eq]; exact hx),
          ih hl.2 a b hab (fun q hq => hmid q (List.mem_cons_of_mem _ hq))]
    · have hnb : ¬ (x < b) := fun hxb => hmid x (List.mem_cons_self _ _) hx hxb
      rw [List.filter_cons_of_neg (by simp only [decide_eq_true_eq]; exact hnb),
          List.filter_cons_of_neg (by simp only [decide_eq_true_eq]; omega),
          ih hl.2 a b hab (fun q hq => hmid q (List.mem_cons_of_mem _ hq))]

theorem validShift_of_occurs_mismatch (t pat : List Symb) (s j e : Nat)
    (hj : j < pat.length)
    (hmis : pat.getD j 0 ≠ t.getD (s+j) 0)
    (hsuf : ∀ k, j < k → k < pat.length → pat.getD k 0 = t.getD (s+k) 0)
    (hocc : ∀ k, k < pat.length → pat.getD k 0 = t.getD (s+e+k) 0) :
    validShift pat (j+1) e := by
  constructor
  · intro q hq1 hq2 hq3
    have h1 := hocc (q - e) (by omega)
    rw [show s + e + (q - e) = s + q from by omega] at h1
    have h2 := hsuf q (by omega) hq2
    rw [h1, ← h2]
  · intro hek
    have h1 := hocc (j - e) (by omega)
    rw [show s + e + (j - e) = s + j from by omega] at h1
    intro hcontra
    rw [show j + 1 - 1 - e = j - e from by omega, show j + 1 - 1 = j from by omega] at hcontra
    exact hmis (hcontra.symm.trans h1)

theorem validShift_of_two_occurs (t pat : List Symb) (s e : Nat)
    (hocc1 : ∀ k, k < pat.length → pat.getD k 0 = t.getD (s+k) 0)
    (hocc2 : ∀ k, k < pat.length → pat.getD k 0 = t.getD (s+e+k) 0) :
    validShift pat 0 e := by
  constructor
  · intro q hq1 hq2 hq3
    have h1 := hocc2 (q - e) (by omega)
    rw [show s + e + (q - e) = s + q from by omega] at h1
    rw [h1, ← hocc1 q hq2]
  · intro h
    omega

theorem int_ofNat_eq (n : Nat) : Int.ofNat n = (n : Int) := rfl

theorem badCharShift_le (t pat : List Symb) (s j e : Nat)
    (hj : j < pat.length) (he : 1 ≤ e)
    (hocc : ∀ k, k < pat.length → pat.getD k 0 = t.getD (s+e+k) 0) :
    max 1 ((j : Int) - (precomputeBadCharacterTable pat).getD (t.getD (s+j) 0).val 0)
      ≤ (e : Int) := by
  rcases Nat.lt_or_ge j e with hlt | hge
  · have hbc : -1 ≤ (precomputeBadCharacterTable pat).getD (t.getD (s+j) 0).val 0 := by
      rcases precomputeBadCharacterTable_char pat (t.getD (s+j) 0) with
        ⟨h1, _⟩ | ⟨i, _, _, h1, _⟩
      · rw [h1]
      · rw [h1, int_ofNat_eq]
        omega
    apply max_le
    · omega
    · omega
  · have h1 := hocc (j - e) (by omega)
    rw [show s + e + (j - e) = s + j from by omega] at h1
    have hbc : ((j - e : Nat) : Int) ≤
        (precomputeBadCharacterTable pat).getD (t.getD (s+j) 0).val 0 := by
      rcases precomputeBadCharacterTable_char pat (t.getD (s+j) 0) with
        ⟨h2, h3⟩ | ⟨i, hi1, hi2, h2, h3⟩
      · exact absurd h1 (h3 (j-e) (by omega))
      · rw [h2, int_ofNat_eq]
        exact_mod_cast h3 (j - e) (by omega) h1
    apply max_le
    · omega
    · omega

theorem bmLoop_stop (t pat : List Symb) (bc gs : List Int) (n m : Nat) :
    ∀ fuel (st : BMState), ¬(st.shift ≤ n - m) → bmLoop t pat bc gs n m fuel st = st := by
  intro fuel st h
  cases fuel with
  | zero => rfl
  | succ f => simp only [bmLoop, if_neg h]

theorem bmLoop_cont (t pat : List Symb) (bc gs : List Int) (n m fuel : Nat) (st : BMState)
    (h : st.shift ≤ n - m) :
    bmLoop t pat bc gs n m (fuel+1) st =
      bmLoop t pat bc gs n m fuel (bmStep t pat bc gs n m st) := by
  simp only [bmLoop, if_pos h]

theorem bmLoop_add (t pat : List Symb) (bc gs : List Int) (n m : Nat) :
    ∀ f1 f2 (st : BMState),
      bmLoop t pat bc gs n m (f1 + f2) st = bmLoop t pat bc gs n m f2 (bmLoop t pat bc gs n m f1 st) := by
  intro f1
  induction f1 with
  | zero =>
    intro f2 st
    rw [Nat.zero_add]
    rfl
  | succ f ih =>
    intro f2 st
    by_cases h : st.shift ≤ n - m
    · rw [show f + 1 + f2 = (f + f2) + 1 from by omega, bmLoop_cont t pat bc gs n m _ st h,
        bmLoop_cont t pat bc gs n m f st h, ih]
    · rw [bmLoop_stop t pat bc gs n m _ st h, bmLoop_stop t pat bc gs n m _ st h,
        bmLoop_stop t pat bc gs n m _ st h]

theorem bmInv_step (t pat : List Symb) (hm : 1 ≤ pat.length) (_hmn : pat.length ≤ t.length)
    (st : BMState)
    (inv : BMInv t pat (precomputeBadCharacterTable pat) (precomputeGoodSuffixTable pat) st)
    (hs : st.shift ≤ t.length - pat.length) :
    BMInv t pat (precomputeBadCharacterTable pat) (precomputeGoodSuffixTable pat)
      (bmStep t pat (precomputeBadCharacterTable pat) (precomputeGoodSuffixTable pat)
        t.length pat.length st) ∧
    st.shift <
      (bmStep t pat (precomputeBadCharacterTable pat) (precomputeGoodSuffixTable pat)
        t.length pat.length st).shift := by
  obtain ⟨hglen, hgbnd, hgzero, hglb, -, -⟩ := gsTable_facts pat hm
  have hnaivepw := naiveOccurrences_pairwise t pat
  rcases hmm : mismatchAt t pat st.shift (pat.length - 1) with - | j
  · -- full-match branch
    have hocc : ∀ k, k < pat.length → pat.getD k 0 = t.getD (st.shift + k) 0 := by
      intro k hk
      exact (mismatchAt_none_iff t pat st.shift (pat.length - 1)).mp hmm k (by omega)
    have hsn : st.shift ∈ naiveOccurrences t pat :=
      (mem_naiveOccurrences t pat st.shift).mpr ⟨by omega, (occursAt_iff t pat st.shift).mpr hocc⟩
    have hg0 := hgbnd 0 (Nat.zero_le _)
    have hfsh1 : 1 ≤ ((precomputeGoodSuffixTable pat).getD 0 0).toNat := by omega
    have hnoskip : ∀ q ∈ naiveOccurrences t pat, st.shift < q →
        q < st.shift + ((precomputeGoodSuffixTable pat).getD 0 0).toNat → False := by
      intro q hq hq1 hq2
      obtain ⟨hqlt, hqocc⟩ := (mem_naiveOccurrences t pat q).mp hq
      have hocc2 := (occursAt_iff t pat q).mp hqocc
      have hv : validShift pat 0 (q - st.shift) :=
        validShift_of_two_occurs t pat st.shift (q - st.shift) hocc
          (by
            intro k hk
            have hx := hocc2 k hk
            rwa [show q + k = st.shift + (q - st.shift) + k from by omega] at hx)
      have := hglb 0 (q - st.shift) (Nat.zero_le _) (by omega) hv
      omega
    simp only [bmStep, hmm]
    refine ⟨⟨?_, ?_, ?_, ?_, ?_, ?_⟩, ?_⟩
    · -- hmatched
      dsimp only
      rw [filter_lt_step_mem _ hnaivepw st.shift _ (by omega) hnoskip hsn, ← inv.hmatched]
    · -- hoff
      dsimp only
      rw [List.pairwise_append]
      refine ⟨inv.hoff, List.pairwise_singleton _ _, ?_⟩
      intro o ho b hb
      rw [List.mem_singleton] at hb
      subst hb
      exact (inv.hofflt o ho).1
    · -- hofflt
      dsimp only
      intro o ho
      rcases List.mem_append.mp ho with h | h
      · obtain ⟨h1, h2⟩ := inv.hofflt o h
        exact ⟨by omega, h2⟩
      · rw [List.mem_singleton] at h
        subst h
        exact ⟨by omega, hs⟩
    · -- hevlen
      dsimp only
      simp [inv.hevlen]
    · -- hfull
      intro idx s' fs hidx hev
      dsimp only at hidx hev ⊢
      rw [List.length_append, List.length_singleton] at hidx
      rcases Nat.lt_or_ge idx st.events.length with hlt | hge
      · rw [List.getD_append _ _ _ _ hlt] at hev
        obtain ⟨o1, o2, o3, o4⟩ := inv.hfull idx s' fs hlt hev
        refine ⟨?_, List.mem_append_left _ o2, o3, ?_⟩
        · rw [List.getD_append _ _ _ _ (by rw [← inv.hevlen]; exact hlt)]
          exact o1
        · rw [List.getD_append _ _ _ _
            (by rw [List.length_append, List.length_singleton, ← inv.hevlen]; omega)]
          exact o4
      · have hideq : idx = st.events.length := by omega
        subst hideq
        rw [getD_append_length] at hev
        injection hev with h1 h2
        subst h1
        subst h2
        refine ⟨?_, List.mem_append_right _ (List.mem_singleton_self _), rfl, ?_⟩
        · rw [inv.hevlen, getD_append_length]
        · rw [inv.hevlen,
            show st.offsets.length + 1 = (st.offsets ++ [st.shift]).length from by simp,
            getD_append_length]
    · -- hmis
      intro idx s' j' bcs gss h fs hidx hev
      dsimp only at hidx hev ⊢
      rw [List.length_append, List.length_singleton] at hidx
      rcases Nat.lt_or_ge idx st.events.length with hlt | hge
      · rw [List.getD_append _ _ _ _ hlt] at hev
        obtain ⟨o1, o2, o3, o4, o5, o6, o7⟩ := inv.hmis idx s' j' bcs gss h fs hlt hev
        refine ⟨?_, o2, o3, o4, o5, o6, ?_⟩
        · rw [List.getD_append _ _ _ _ (by rw [← inv.hevlen]; exact hlt)]
          exact o1
        · rw [List.getD_append _ _ _ _
            (by rw [List.length_append, List.length_singleton, ← inv.hevlen]; omega)]
          exact o7
      · have hideq : idx = st.events.length := by omega
        subst hideq
        rw [getD_append_length] at hev
        exact absurd hev (by simp)
    · -- shift increases
      dsimp only
      omega
  · -- mismatch branch
    obtain ⟨hjle, hjne, hjsuf⟩ := mismatchAt_some_spec t pat st.shift (pat.length - 1) j hmm
    have hjlt : j < pat.length := by omega
    have hg1 := hgbnd (j+1) (by omega)
    have hbcs1 : (1 : Int) ≤
        max 1 ((j : Int) - (precomputeBadCharacterTable pat).getD (t.getD (st.shift + j) 0).val 0) :=
      le_max_left _ _
    have hmid : ∀ q ∈ naiveOccurrences t pat, st.shift ≤ q →
        q < st.shift +
          (max (max 1 ((j : Int) - (precomputeBadCharacterTable pat).getD (t.getD (st.shift + j) 0).val 0))
            ((precomputeGoodSuffixTable pat).getD (j+1) 0)).toNat → False := by
      intro q hq hq1 hq2
      obtain ⟨hqlt, hqocc⟩ := (mem_naiveOccurrences t pat q).mp hq
      have hocc2 : ∀ k, k < pat.length → pat.getD k 0 = t.getD (q + k) 0 :=
        (occursAt_iff t pat q).mp hqocc
      rcases Nat.eq_or_lt_of_le hq1 with he | hlt
      · -- q = st.shift : contradicts the mismatch at j
        have := hocc2 j hjlt
        rw [← he] at this
        exact hjne this
      · -- q > st.shift : both heuristic shifts are at most q - st.shift
        have hocc3 : ∀ k, k < pat.length → pat.getD k 0 = t.getD (st.shift + (q - st.shift) + k) 0 := by
          intro k hk
          have hx := hocc2 k hk
          rwa [show q + k = st.shift + (q - st.shift) + k from by omega] at hx
        have hbc := badCharShift_le t pat st.shift j (q - st.shift) hjlt (by omega) hocc3
        have hv : validShift pat (j+1) (q - st.shift) :=
          validShift_of_occurs_mismatch t pat st.shift j (q - st.shift) hjlt hjne
            (fun k hk1 hk2 => hjsuf k hk1 (by omega)) hocc3
        have hgs := hglb (j+1) (q - st.shift) (by omega) (by omega) hv
        omega
    simp only [bmStep, hmm]
    refine ⟨⟨?_, ?_, ?_, ?_, ?_, ?_⟩, ?_⟩
    · -- hmatched
      dsimp only
      rw [filter_lt_step_skip _ hnaivepw st.shift _ (by omega) hmid, ← inv.hmatched]
    · -- hoff
      dsimp only
      rw [List.pairwise_append]
      refine ⟨inv.hoff, List.pairwise_singleton _ _, ?_⟩
      intro o ho b hb
      rw [List.mem_singleton] at hb
      subst hb
      exact (inv.hofflt o ho).1
    · -- hofflt
      dsimp only
      intro o ho
      rcases List.mem_append.mp ho with h | h
      · obtain ⟨h1, h2⟩ := inv.hofflt o h
        exact ⟨by omega, h2⟩
      · rw [List.mem_singleton] at h
        subst h
        exact ⟨by omega, hs⟩
    · -- hevlen
      dsimp only
      simp [inv.hevlen]
    · -- hfull
      intro idx s' fs hidx hev
      dsimp only at hidx hev ⊢
      rw [List.length_append, List.length_singleton] at hidx
      rcases Nat.lt_or_ge idx st.events.length with hlt | hge
      · rw [List.getD_append _ _ _ _ hlt] at hev
        obtain ⟨o1, o2, o3, o4⟩ := inv.hfull idx s' fs hlt hev
        refine ⟨?_, o2, o3, ?_⟩
        · rw [List.getD_append _ _ _ _ (by rw [← inv.hevlen]; exact hlt)]
          exact o1
        · rw [List.getD_append _ _ _ _
            (by rw [List.length_append, List.length_singleton, ← inv.hevlen]; omega)]
          exact o4
      · have hideq : idx = st.events.length := by omega
        subst hideq
        rw [getD_append_length] at hev
        exact absurd hev (by simp)
    · -- hmis
      intro idx s' j' bcs gss h fs hidx hev
      dsimp only at hidx hev ⊢
      rw [List.length_append, List.length_singleton] at hidx
      rcases Nat.lt_or_ge idx st.events.length with hlt | hge
      · rw [List.getD_append _ _ _ _ hlt] at hev
        obtain ⟨o1, o2, o3, o4, o5, o6, o7⟩ := inv.hmis idx s' j' bcs gss h fs hlt hev
        refine ⟨?_, o2, o3, o4, o5, o6, ?_⟩
        · rw [List.getD_append _ _ _ _ (by rw [← inv.hevlen]; exact hlt)]
          exact o1
        · rw [List.getD_append _ _ _ _
            (by rw [List.length_append, List.length_singleton, ← inv.hevlen]; omega)]
          exact o7
      · have hideq : idx = st.events.length := by omega
        subst hideq
        rw [getD_append_length] at hev
        injection hev with h1 h2 h3 h4 h5 h6
        subst h1
        subst h2
        subst h3
        subst h4
        subst h5
        subst h6
        refine ⟨?_, hjlt, rfl, rfl, rfl, ?_, ?_⟩
        · rw [inv.hevlen, getD_append_length]
        · constructor
          · intro hstr
            by_contra hn
            rw [if_neg hn] at hstr
            exact absurd hstr (by decide)
          · intro hle
            rw [if_pos hle]
        · rw [inv.hevlen,
            show st.offsets.length + 1 = (st.offsets ++ [st.shift]).length from by simp,
            getD_append_length]
    · -- shift increases
      dsimp only
      omega

theorem bmLoop_master (t pat : List Symb) (hm : 1 ≤ pat.length) (hmn : pat.length ≤ t.length) :
    ∀ fuel st,
      BMInv t pat (precomputeBadCharacterTable pat) (precomputeGoodSuffixTable pat) st →
      t.length - pat.length + 1 ≤ fuel + st.shift →
      BMInv t pat (precomputeBadCharacterTable pat) (precomputeGoodSuffixTable pat)
        (bmLoop t pat (precomputeBadCharacterTable pat) (precomputeGoodSuffixTable pat)
          t.length pat.length fuel st) ∧
      t.length - pat.length <
        (bmLoop t pat (precomputeBadCharacterTable pat) (precomputeGoodSuffixTable pat)
          t.length pat.length fuel st).shift := by
  intro fuel
  induction fuel with
  | zero =>
    intro st inv hfuel
    have h0 : bmLoop t pat (precomputeBadCharacterTable pat) (precomputeGoodSuffixTable pat)
        t.length pat.length 0 st = st := rfl
    rw [h0]
    exact ⟨inv, by omega⟩
  | succ f ih =>
    intro st inv hfuel
    by_cases hsc : st.shift ≤ t.length - pat.length
    · rw [bmLoop_cont t pat _ _ _ _ f st hsc]
      obtain ⟨inv', hlt⟩ := bmInv_step t pat hm hmn st inv hsc
      exact ih _ inv' (by omega)
    · rw [bmLoop_stop t pat _ _ _ _ (f+1) st hsc]
      exact ⟨inv, by omega⟩

theorem bmInv_init (t pat : List Symb) :
    BMInv t pat (precomputeBadCharacterTable pat) (precomputeGoodSuffixTable pat) initBMState := by
  refine ⟨?_, List.Pairwise.nil, ?_, rfl, ?_, ?_⟩
  · dsimp only [initBMState]
    symm
    rw [List.filter_eq_nil_iff]
    intro q hq
    simp
  · intro o ho
    exact absurd ho (List.not_mem_nil o)
  · intro idx s fs hidx hev
    exact absurd hidx (by simp [initBMState])
  · intro idx s j bcs gss h fs hidx hev
    exact absurd hidx (by simp [initBMState])

theorem searchBoyerMoore_run (t pat : List Symb) (hm : 1 ≤ pat.length)
    (hmn : pat.length ≤ t.length) :
    searchBoyerMoore t pat =
      { degenerate := false
        matchedIndex := (bmLoop t pat (precomputeBadCharacterTable pat)
          (precomputeGoodSuffixTable pat) t.length pat.length
          (t.length - pat.length + 1) initBMState).matchedIndex
        found := (bmLoop t pat (precomputeBadCharacterTable pat)
          (precomputeGoodSuffixTable pat) t.length pat.length
          (t.length - pat.length + 1) initBMState).found
        totalSkippedChars := (bmLoop t pat (precomputeBadCharacterTable pat)
          (precomputeGoodSuffixTable pat) t.length pat.length
          (t.length - pat.length + 1) initBMState).totalSkippedChars
        offsets := (bmLoop t pat (precomputeBadCharacterTable pat)
          (precomputeGoodSuffixTable pat) t.length pat.length
          (t.length - pat.length + 1) initBMState).offsets
        events := (bmLoop t pat (precomputeBadCharacterTable pat)
          (precomputeGoodSuffixTable pat) t.length pat.length
          (t.length - pat.length + 1) initBMState).events } := by
  unfold searchBoyerMoore
  rw [if_neg (by omega)]

theorem searchBoyerMoore_inv (t pat : List Symb) (hm : 1 ≤ pat.length)
    (hmn : pat.length ≤ t.length) :
    BMInv t pat (precomputeBadCharacterTable pat) (precomputeGoodSuffixTable pat)
      (bmLoop t pat (precomputeBadCharacterTable pat) (precomputeGoodSuffixTable pat)
        t.length pat.length (t.length - pat.length + 1) initBMState) ∧
    t.length - pat.length <
      (bmLoop t pat (precomputeBadCharacterTable pat) (precomputeGoodSuffixTable pat)
        t.length pat.length (t.length - pat.length + 1) initBMState).shift :=
  bmLoop_master t pat hm hmn (t.length - pat.length + 1) initBMState (bmInv_init t pat)
    (by simp [initBMState])

theorem pairwise_lt_length_le (l : List Nat) (B : Nat) (hl : l.Pairwise (· < ·))
    (hb : ∀ o ∈ l, o ≤ B) : l.length ≤ B + 1 := by
  have hnd : l.Nodup := hl.imp Nat.ne_of_lt
  have hsub : l.toFinset ⊆ Finset.range (B+1) := by
    intro x hx
    rw [List.mem_toFinset] at hx
    rw [Finset.mem_range]
    have := hb x hx
    omega
  have hcard := Finset.card_le_card hsub
  rw [List.toFinset_card_of_nodup hnd, Finset.card_range] at hcard
  exact hcard

/-- C1: for every text and every pattern with `1 ≤ len(p) ≤ len(t)`, the
ordered sequence of match offsets recorded by `searchBoyerMoore` equals the
sequence of all offsets where the pattern occurs, as computed by the naive
character-by-character reference scan `naiveOccurrences` (ascending,
including overlapping occurrences). -/
theorem claim_C1_matches_naive (text pattern : List Symb)
    (hm : 1 ≤ pattern.length) (hmn : pattern.length ≤ text.length) :
    (searchBoyerMoore text pattern).matchedIndex = naiveOccurrences text pattern := by
  obtain ⟨inv, hterm⟩ := searchBoyerMoore_inv text pattern hm hmn
  rw [searchBoyerMoore_run text pattern hm hmn]
  dsimp only
  rw [inv.hmatched]
  apply List.filter_eq_self.mpr
  intro q hq
  obtain ⟨hql, -⟩ := (mem_naiveOccurrences text pattern q).mp hq
  simp only [decide_eq_true_eq]
  omega

/-- Witness for C1 at the worked example of the repository:
text `"AAAAAAB"`, pattern `"AB"`. -/
theorem claim_C1_matches_naive_witness :
    (1 ≤ ([symA, symB] : List Symb).length ∧
      ([symA, symB] : List Symb).length ≤
        ([symA,symA,symA,symA,symA,symA,symB] : List Symb).length) ∧
    (searchBoyerMoore [symA,symA,symA,symA,symA,symA,symB] [symA, symB]).matchedIndex =
      naiveOccurrences [symA,symA,symA,symA,symA,symA,symB] [symA, symB] :=
  ⟨⟨by decide, by decide⟩, claim_C1_matches_naive _ _ (by decide) (by decide)⟩

/-- C2: for every nonempty pattern, `precomputeGoodSuffixTable` yields a
table of `m+1` entries, all in `[1, m]` (none left at the zero
placeholder), and entry 0 equals `m` minus the length of the widest proper
border of the whole pattern (which is `m` itself when the only border is
the empty one). -/
theorem claim_C2_goodSuffixInvariants (pattern : List Symb) (hm : 1 ≤ pattern.length) :
    (precomputeGoodSuffixTable pattern).length = pattern.length + 1 ∧
    (∀ k, k ≤ pattern.length →
      1 ≤ (precomputeGoodSuffixTable pattern).getD k 0 ∧
      (precomputeGoodSuffixTable pattern).getD k 0 ≤ (pattern.length : Int)) ∧
    (∃ wb : Nat, isBorderLen pattern wb ∧ (∀ l, isBorderLen pattern l → l ≤ wb) ∧
      (precomputeGoodSuffixTable pattern).getD 0 0 =
        (pattern.length : Int) - (wb : Int)) := by
  obtain ⟨h1, h2, ⟨b, hb1, hb2, hb3⟩, h4, h5, h6⟩ := gsTable_facts pattern hm
  refine ⟨h1, h2, ⟨pattern.length - b, ?_, ?_, ?_⟩⟩
  · obtain ⟨hb0, hbm, hpm⟩ := hb2
    refine ⟨by omega, fun u hu => ?_⟩
    have hx := hpm u (by omega)
    have e : pattern.length - (pattern.length - b) = b := by omega
    rw [e]
    simpa using hx
  · intro l hl
    obtain ⟨hl1, hl2⟩ := hl
    have hbord : isBorderStart pattern 0 (pattern.length - l) := by
      refine ⟨by omega, by omega, fun u hu => ?_⟩
      have hx := hl2 u (by omega)
      simpa using hx
    have hle := hb3 _ hbord
    have hbm := isBorderStart_le hb2
    omega
  · rw [hb1]
    have hbm := isBorderStart_le hb2
    have hb0 := isBorderStart_lt hb2
    omega

/-- Witness for C2 at the pattern `"AB"`. -/
theorem claim_C2_goodSuffixInvariants_witness :
    1 ≤ ([symA, symB] : List Symb).length ∧
    ((precomputeGoodSuffixTable [symA, symB]).length = ([symA, symB] : List Symb).length + 1 ∧
    (∀ k, k ≤ ([symA, symB] : List Symb).length →
      1 ≤ (precomputeGoodSuffixTable [symA, symB]).getD k 0 ∧
      (precomputeGoodSuffixTable [symA, symB]).getD k 0 ≤ (([symA, symB] : List Symb).length : Int)) ∧
    (∃ wb : Nat, isBorderLen [symA, symB] wb ∧ (∀ l, isBorderLen [symA, symB] l → l ≤ wb) ∧
      (precomputeGoodSuffixTable [symA, symB]).getD 0 0 =
        ((([symA, symB] : List Symb).length) : Int) - (wb : Int))) :=
  ⟨by decide, claim_C2_goodSuffixInvariants [symA, symB] (by decide)⟩

/-- C3: for every text and nonempty pattern no longer than the text, the
alignment offsets visited by the search loop are strictly increasing, the
loop terminates within `n - m + 1` alignment steps (the visited-offsets log
has at most `n - m + 1` entries, and giving the fuelled loop any extra fuel
changes nothing), and the recorded match offsets are strictly ascending. -/
theorem claim_C3_monotone_termination (text pattern : List Symb)
    (hm : 1 ≤ pattern.length) (hmn : pattern.length ≤ text.length) :
    (searchBoyerMoore text pattern).offsets.Pairwise (· < ·) ∧
    (searchBoyerMoore text pattern).offsets.length ≤ text.length - pattern.length + 1 ∧
    (searchBoyerMoore text pattern).matchedIndex.Pairwise (· < ·) ∧
    (∀ extra, bmLoop text pattern (precomputeBadCharacterTable pattern)
        (precomputeGoodSuffixTable pattern) text.length pattern.length
        (text.length - pattern.length + 1 + extra) initBMState =
      bmLoop text pattern (precomputeBadCharacterTable pattern)
        (precomputeGoodSuffixTable pattern) text.length pattern.length
        (text.length - pattern.length + 1) initBMState) := by
  obtain ⟨inv, hterm⟩ := searchBoyerMoore_inv text pattern hm hmn
  rw [searchBoyerMoore_run text pattern hm hmn]
  dsimp only
  refine ⟨inv.hoff, ?_, ?_, ?_⟩
  · exact pairwise_lt_length_le _ _ inv.hoff (fun o ho => (inv.hofflt o ho).2)
  · rw [inv.hmatched]
    exact List.Pairwise.filter _ (naiveOccurrences_pairwise text pattern)
  · intro extra
    rw [bmLoop_add text pattern _ _ _ _ (text.length - pattern.length + 1) extra initBMState]
    exact bmLoop_stop text pattern _ _ _ _ extra _ (by omega)

/-- Witness for C3 at text `"AAAAAAB"`, pattern `"AB"`. -/
theorem claim_C3_monotone_termination_witness :
    (1 ≤ ([symA, symB] : List Symb).length ∧
      ([symA, symB] : List Symb).length ≤
        ([symA,symA,symA,symA,symA,symA,symB] : List Symb).length) ∧
    ((searchBoyerMoore [symA,symA,symA,symA,symA,symA,symB] [symA, symB]).offsets.Pairwise (· < ·) ∧
    (searchBoyerMoore [symA,symA,symA,symA,symA,symA,symB] [symA, symB]).offsets.length ≤
      ([symA,symA,symA,symA,symA,symA,symB] : List Symb).length - ([symA, symB] : List Symb).length + 1 ∧
    (searchBoyerMoore [symA,symA,symA,symA,symA,symA,symB] [symA, symB]).matchedIndex.Pairwise (· < ·) ∧
    (∀ extra, bmLoop [symA,symA,symA,symA,symA,symA,symB] [symA, symB]
        (precomputeBadCharacterTable [symA, symB])
        (precomputeGoodSuffixTable [symA, symB])
        ([symA,symA,symA,symA,symA,symA,symB] : List Symb).length ([symA, symB] : List Symb).length
        (([symA,symA,symA,symA,symA,symA,symB] : List Symb).length - ([symA, symB] : List Symb).length + 1 + extra)
        initBMState =
      bmLoop [symA,symA,symA,symA,symA,symA,symB] [symA, symB]
        (precomputeBadCharacterTable [symA, symB])
        (precomputeGoodSuffixTable [symA, symB])
        ([symA,symA,symA,symA,symA,symA,symB] : List Symb).length ([symA, symB] : List Symb).length
        (([symA,symA,symA,symA,symA,symA,symB] : List Symb).length - ([symA, symB] : List Symb).length + 1)
        initBMState)) :=
  ⟨⟨by decide, by decide⟩, claim_C3_monotone_termination _ _ (by decide) (by decide)⟩

/-- C4: at every alignment where the search loop detects a mismatch at
pattern position `j`, the applied shift is the maximum of the bad-character
shift `max(1, j - BadCharTable[text[s+j]])` and the good-suffix shift
`GoodSuffixShift[j+1]`, and on ties the bad-character heuristic is the one
credited (the `>=` comparison favours it). -/
theorem claim_C4_mismatchShift (text pattern : List Symb)
    (hm : 1 ≤ pattern.length) (hmn : pattern.length ≤ text.length) :
    ∀ idx s j bcs gss h fs,
      idx < (searchBoyerMoore text pattern).events.length →
      (searchBoyerMoore text pattern).events.getD idx (.mismatch 0 0 0 0 "" 0) =
        .mismatch s j bcs gss h fs →
      bcs = max 1 ((j : Int) -
        (precomputeBadCharacterTable pattern).getD (text.getD (s + j) 0).val 0) ∧
      gss = (precomputeGoodSuffixTable pattern).getD (j+1) 0 ∧
      fs = max bcs gss ∧
      (h = "Bad Character" ↔ gss ≤ bcs) ∧
      (idx + 1 < (searchBoyerMoore text pattern).offsets.length →
        (searchBoyerMoore text pattern).offsets.getD (idx+1) 0 = s + fs.toNat) := by
  obtain ⟨inv, hterm⟩ := searchBoyerMoore_inv text pattern hm hmn
  rw [searchBoyerMoore_run text pattern hm hmn]
  dsimp only
  intro idx s j bcs gss h fs hidx hev
  obtain ⟨o1, o2, o3, o4, o5, o6, o7⟩ := inv.hmis idx s j bcs gss h fs hidx hev
  refine ⟨o3, o4, o5, o6, ?_⟩
  intro hlt
  rw [List.getD_append _ _ _ _ hlt] at o7
  exact o7

/-- Witness for C4 at text `"AAAAAAB"`, pattern `"AB"` (whose run contains
mismatch events). -/
theorem claim_C4_mismatchShift_witness :
    (1 ≤ ([symA, symB] : List Symb).length ∧
      ([symA, symB] : List Symb).length ≤
        ([symA,symA,symA,symA,symA,symA,symB] : List Symb).length) ∧
    (∀ idx s j bcs gss h fs,
      idx < (searchBoyerMoore [symA,symA,symA,symA,symA,symA,symB] [symA, symB]).events.length →
      (searchBoyerMoore [symA,symA,symA,symA,symA,symA,symB] [symA, symB]).events.getD idx
          (.mismatch 0 0 0 0 "" 0) = .mismatch s j bcs gss h fs →
      bcs = max 1 ((j : Int) -
        (precomputeBadCharacterTable [symA, symB]).getD
          (([symA,symA,symA,symA,symA,symA,symB] : List Symb).getD (s + j) 0).val 0) ∧
      gss = (precomputeGoodSuffixTable [symA, symB]).getD (j+1) 0 ∧
      fs = max bcs gss ∧
      (h = "Bad Character" ↔ gss ≤ bcs) ∧
      (idx + 1 < (searchBoyerMoore [symA,symA,symA,symA,symA,symA,symB] [symA, symB]).offsets.length →
        (searchBoyerMoore [symA,symA,symA,symA,symA,symA,symB] [symA, symB]).offsets.getD (idx+1) 0 =
          s + fs.toNat)) :=
  ⟨⟨by decide, by decide⟩, claim_C4_mismatchShift _ _ (by decide) (by decide)⟩

/-- C5: every full match at offset `s` records `s` in the match list and
advances the alignment by exactly `GoodSuffixShift[0]`; in particular
searching for `"AA"` in `"AAAA"` records exactly the overlapping matches
`[0, 1, 2]`. -/
theorem claim_C5_fullMatchShift (text pattern : List Symb)
    (hm : 1 ≤ pattern.length) (hmn : pattern.length ≤ text.length) :
    (∀ idx s fs,
      idx < (searchBoyerMoore text pattern).events.length →
      (searchBoyerMoore text pattern).events.getD idx (.mismatch 0 0 0 0 "" 0) =
        .fullMatch s fs →
      s ∈ (searchBoyerMoore text pattern).matchedIndex ∧
      (searchBoyerMoore text pattern).offsets.getD idx 0 = s ∧
      fs = (precomputeGoodSuffixTable pattern).getD 0 0 ∧
      (idx + 1 < (searchBoyerMoore text pattern).offsets.length →
        (searchBoyerMoore text pattern).offsets.getD (idx+1) 0 = s + fs.toNat)) ∧
    (searchBoyerMoore (List.replicate 4 symA) [symA, symA]).matchedIndex = [0, 1, 2] := by
  constructor
  · obtain ⟨inv, hterm⟩ := searchBoyerMoore_inv text pattern hm hmn
    rw [searchBoyerMoore_run text pattern hm hmn]
    dsimp only
    intro idx s fs hidx hev
    obtain ⟨o1, o2, o3, o4⟩ := inv.hfull idx s fs hidx hev
    refine ⟨o2, o1, o3, ?_⟩
    intro hlt
    rw [List.getD_append _ _ _ _ hlt] at o4
    exact o4
  · decide

/-- Witness for C5 at text `"AAAA"`, pattern `"AA"` (the spec's overlap
example). -/
theorem claim_C5_fullMatchShift_witness :
    (1 ≤ ([symA, symA] : List Symb).length ∧
      ([symA, symA] : List Symb).length ≤ (List.replicate 4 symA : List Symb).length) ∧
    ((∀ idx s fs,
      idx < (searchBoyerMoore (List.replicate 4 symA) [symA, symA]).events.length →
      (searchBoyerMoore (List.replicate 4 symA) [symA, symA]).events.getD idx
          (.mismatch 0 0 0 0 "" 0) = .fullMatch s fs →
      s ∈ (searchBoyerMoore (List.replicate 4 symA) [symA, symA]).matchedIndex ∧
      (searchBoyerMoore (List.replicate 4 symA) [symA, symA]).offsets.getD idx 0 = s ∧
      fs = (precomputeGoodSuffixTable [symA, symA]).getD 0 0 ∧
      (idx + 1 < (searchBoyerMoore (List.replicate 4 symA) [symA, symA]).offsets.length →
        (searchBoyerMoore (List.replicate 4 symA) [symA, symA]).offsets.getD (idx+1) 0 =
          s + fs.toNat)) ∧
    (searchBoyerMoore (List.replicate 4 symA) [symA, symA]).matchedIndex = [0, 1, 2]) :=
  ⟨⟨by decide, by decide⟩, claim_C5_fullMatchShift _ _ (by decide) (by decide)⟩

/-- C9: during `precomputeGoodSuffixTable` each `goodSuffixShifts` slot is
written at most once after initialisation: the ghost log of assignments (in
order, both border-pass and fill-pass writes) has no duplicate slot, and for
a nonempty pattern it holds exactly the slots `0..m`, each exactly once. -/
theorem claim_C9_writeOnce (pattern : List Symb) (hm : 1 ≤ pattern.length) :
    (precomputeGoodSuffixTableFull pattern).2.2.Nodup ∧
    (∀ k, k ∈ (precomputeGoodSuffixTableFull pattern).2.2 ↔ k ≤ pattern.length) := by
  obtain ⟨-, -, -, -, h5, h6⟩ := gsTable_facts pattern hm
  exact ⟨h5, h6⟩

/-- Witness for C9 at the pattern `"AA"`. -/
theorem claim_C9_writeOnce_witness :
    1 ≤ ([symA, symA] : List Symb).length ∧
    ((precomputeGoodSuffixTableFull [symA, symA]).2.2.Nodup ∧
    (∀ k, k ∈ (precomputeGoodSuffixTableFull [symA, symA]).2.2 ↔
      k ≤ ([symA, symA] : List Symb).length)) :=
  ⟨by decide, claim_C9_writeOnce [symA, symA] (by decide)⟩

theorem readL_eq {α : Type*} (l : List α) (i : Nat) (d : α) (h : i < l.length) :
    readL l i = some (l.getD i d) := by
  unfold readL
  rw [List.getElem?_eq_getElem h, List.getD_eq_getElem l d h]

theorem writeL_eq {α : Type*} (l : List α) (i : Nat) (v : α) (h : i < l.length) :
    writeL l i v = some (l.set i v) := by
  unfold writeL
  rw [if_pos h]

theorem bcChecked_foldlM (p : List Symb) :
    ∀ l : List Nat, (∀ i ∈ l, i < p.length) → ∀ tbl : List Int, tbl.length = NUM_CHARS →
    (l.foldlM (fun tbl i => do
        let c ← readL p i
        writeL tbl c.val (Int.ofNat i)) tbl : Option (List Int)) =
      some (l.foldl (fun tbl i => tbl.set (p.getD i 0).val (Int.ofNat i)) tbl) := by
  intro l
  induction l with
  | nil =>
    intro _ tbl _
    rfl
  | cons x xs ih =>
    intro hmem tbl hlen
    have h1 : readL p x = some (p.getD x 0) := readL_eq p x 0 (hmem x (by simp))
    have h2 : writeL tbl (p.getD x 0).val (Int.ofNat x) =
        some (tbl.set (p.getD x 0).val (Int.ofNat x)) :=
      writeL_eq _ _ _ (by rw [hlen]; exact (p.getD x 0).isLt)
    rw [List.foldlM_cons]
    simp only [h1, h2, Option.bind_eq_bind, Option.some_bind, List.foldl_cons]
    exact ih (fun i hi => hmem i (by simp [hi])) _ (by rw [List.length_set]; exact hlen)

theorem precomputeBadCharacterTableChecked_sim (p : List Symb) :
    precomputeBadCharacterTableChecked p = some (precomputeBadCharacterTable p) := by
  unfold precomputeBadCharacterTableChecked precomputeBadCharacterTable
  exact bcChecked_foldlM p (List.range p.length) (fun i hi => List.mem_range.mp hi)
    (List.replicate NUM_CHARS (-1)) (List.length_replicate _ _)

theorem mismatchAtChecked_sim (t pat : List Symb) (s : Nat) :
    ∀ j, j < pat.length → s + j < t.length →
      mismatchAtChecked t pat s j = some (mismatchAt t pat s j) := by
  intro j
  induction j with
  | zero =>
    intro hj hs
    have h1 : readL pat 0 = some (pat.getD 0 0) := readL_eq pat 0 0 hj
    have h2 : readL t s = some (t.getD s 0) := readL_eq t s 0 (by omega)
    simp only [mismatchAtChecked, h1, h2, Option.bind_eq_bind, Option.some_bind, mismatchAt]
    rfl
  | succ n ih =>
    intro hj hs
    have h1 : readL pat (n+1) = some (pat.getD (n+1) 0) := readL_eq pat (n+1) 0 hj
    have h2 : readL t (s+n+1) = some (t.getD (s+n+1) 0) := readL_eq t (s+n+1) 0 (by omega)
    simp only [mismatchAtChecked, h1, h2, Option.bind_eq_bind, Option.some_bind]
    by_cases hcmp : pat.getD (n+1) 0 = t.getD (s+n+1) 0
    · rw [if_pos hcmp, ih (by omega) (by omega)]
      simp only [mismatchAt, if_pos hcmp]
    · rw [if_neg hcmp]
      simp only [mismatchAt, if_neg hcmp]
      rfl

theorem gsInnerLoopChecked_sim (p : List Symb) :
    ∀ fuel st,
      1 ≤ st.i → st.i ≤ p.length → st.i < st.j → st.j ≤ p.length + 1 →
      st.bp.length = p.length + 1 → st.gs.length = p.length + 1 →
      (∀ k, st.i ≤ k → k ≤ p.length →
        k < st.bp.getD k 0 ∧ st.bp.getD k 0 ≤ p.length + 1) →
      gsInnerLoopChecked p p.length fuel st = some (gsInnerLoop p p.length fuel st) ∧
      st.i < (gsInnerLoop p p.length fuel st).j ∧
      (gsInnerLoop p p.length fuel st).j ≤ p.length + 1 ∧
      (gsInnerLoop p p.length fuel st).gs.length = p.length + 1 := by
  intro fuel
  induction fuel with
  | zero =>
    intro st hi1 him hij hjm1 hbpl hgsl hbp
    exact ⟨rfl, hij, hjm1, hgsl⟩
  | succ f ih =>
    intro st hi1 him hij hjm1 hbpl hgsl hbp
    by_cases hjm : st.j ≤ p.length
    · have hri : readL p (st.i - 1) = some (p.getD (st.i - 1) 0) :=
        readL_eq p (st.i - 1) 0 (by omega)
      have hrj : readL p (st.j - 1) = some (p.getD (st.j - 1) 0) :=
        readL_eq p (st.j - 1) 0 (by omega)
      have hrg : readL st.gs st.j = some (st.gs.getD st.j 0) :=
        readL_eq st.gs st.j 0 (by omega)
      have hbpj := hbp st.j (by omega) hjm
      have hrbp : readL st.bp st.j = some (st.bp.getD st.j 0) :=
        readL_eq st.bp st.j 0 (by omega)
      by_cases hne : p.getD (st.i - 1) 0 ≠ p.getD (st.j - 1) 0
      · have hcond : st.j ≤ p.length ∧ p.getD (st.i - 1) 0 ≠ p.getD (st.j - 1) 0 :=
          ⟨hjm, hne⟩
        by_cases hg : st.gs.getD st.j 0 = 0
        · have hwg : writeL st.gs st.j ((st.j : Int) - (st.i : Int)) =
              some (st.gs.set st.j ((st.j : Int) - (st.i : Int))) :=
            writeL_eq _ _ _ (by omega)
          rw [gsInnerLoop_step_write p p.length f st hcond hg]
          obtain ⟨hsim, hj1, hj2, hgl⟩ := ih
            { bp := st.bp, gs := st.gs.set st.j ((st.j : Int) - (st.i : Int)),
              i := st.i, j := st.bp.getD st.j 0, writes := st.writes ++ [st.j] }
            hi1 him (by dsimp only; omega) (by dsimp only; omega)
            hbpl (by dsimp only; rw [List.length_set]; exact hgsl)
            (by dsimp only; exact hbp)
          refine ⟨?_, hj1, hj2, hgl⟩
          simp only [gsInnerLoopChecked, hjm, if_true, hri, hrj, Option.bind_eq_bind,
            Option.some_bind, ne_eq, hne, not_false_eq_true, hrg, hg, eq_self_iff_true,
            hwg, Option.pure_def, hrbp]
          exact hsim
        · rw [gsInnerLoop_step_skip p p.length f st hcond hg]
          obtain ⟨hsim, hj1, hj2, hgl⟩ := ih
            { bp := st.bp, gs := st.gs, i := st.i, j := st.bp.getD st.j 0,
              writes := st.writes }
            hi1 him (by dsimp only; omega) (by dsimp only; omega)
            hbpl hgsl (by dsimp only; exact hbp)
          refine ⟨?_, hj1, hj2, hgl⟩
          simp only [gsInnerLoopChecked, hjm, if_true, hri, hrj, Option.bind_eq_bind,
            Option.some_bind, ne_eq, hne, not_false_eq_true, hrg, hg, if_false,
            Option.pure_def, hrbp]
          exact hsim
      · have heq : p.getD (st.i - 1) 0 = p.getD (st.j - 1) 0 := not_not.mp hne
        rw [gsInnerLoop_exit p p.length f st (fun h => h.2 heq)]
        refine ⟨?_, hij, hjm1, hgsl⟩
        simp only [gsInnerLoopChecked, hjm, if_true, hri, hrj, Option.bind_eq_bind,
          Option.some_bind, heq, ne_eq, not_true_eq_false, if_false, Option.pure_def]
    · rw [gsInnerLoop_exit p p.length f st (fun h => hjm h.1)]
      refine ⟨?_, hij, hjm1, hgsl⟩
      simp only [gsInnerLoopChecked, hjm, if_false, Option.pure_def]

theorem gsOuterLoopChecked_sim (p : List Symb) :
    ∀ fuel st,
      st.i ≤ p.length →
      st.bp.length = p.length + 1 → st.gs.length = p.length + 1 →
      st.j = st.bp.getD st.i 0 →
      (∀ k, st.i ≤ k → k ≤ p.length →
        k < st.bp.getD k 0 ∧ st.bp.getD k 0 ≤ p.length + 1) →
      gsOuterLoopChecked p p.length fuel st = some (gsOuterLoop p p.length fuel st) ∧
      (gsOuterLoop p p.length fuel st).bp.length = p.length + 1 ∧
      (gsOuterLoop p p.length fuel st).gs.length = p.length + 1 := by
  intro fuel
  induction fuel with
  | zero =>
    intro st _ hbpl hgsl _ _
    exact ⟨rfl, hbpl, hgsl⟩
  | succ f ih =>
    intro st him hbpl hgsl hjlink hbp
    by_cases hi : 0 < st.i
    · have hbpi := hbp st.i le_rfl him
      obtain ⟨hinner, hj1, hj2, hgl1⟩ :=
        gsInnerLoopChecked_sim p (p.length + 2) st hi him (by omega) (by omega)
          hbpl hgsl hbp
      have hbpfix := gsInnerLoop_bp_i p p.length (p.length + 2) st
      rw [gsOuterLoop_step p p.length f st hi]
      rw [hbpfix.1, hbpfix.2]
      obtain ⟨hsim, hbl, hgl⟩ := ih
        { bp := st.bp.set (st.i - 1) ((gsInnerLoop p p.length (p.length+2) st).j - 1),
          gs := (gsInnerLoop p p.length (p.length+2) st).gs,
          i := st.i - 1,
          j := (gsInnerLoop p p.length (p.length+2) st).j - 1,
          writes := (gsInnerLoop p p.length (p.length+2) st).writes }
        (by dsimp only; omega)
        (by dsimp only; rw [List.length_set]; exact hbpl)
        (by dsimp only; exact hgl1)
        (by dsimp only; rw [getD_set_self st.bp (st.i - 1) _ 0 (by omega)])
        (by
          dsimp only
          intro k hk1 hk2
          by_cases hk : k = st.i - 1
          · subst hk
            rw [getD_set_self st.bp (st.i - 1) _ 0 (by omega)]
            omega
          · rw [getD_set_ne st.bp (st.i - 1) k _ 0 (fun h => hk h.symm)]
            exact hbp k (by omega) hk2)
      refine ⟨?_, hbl, hgl⟩
      have hwbp : writeL st.bp (st.i - 1)
          ((gsInnerLoop p p.length (p.length+2) st).j - 1) =
          some (st.bp.set (st.i - 1)
            ((gsInnerLoop p p.length (p.length+2) st).j - 1)) :=
        writeL_eq _ _ _ (by omega)
      simp only [gsOuterLoopChecked, hi, if_true, hinner, Option.bind_eq_bind,
        Option.some_bind, hbpfix.1, hbpfix.2, hwbp, Option.pure_def]
      exact hsim
    · rw [gsOuterLoop_exit p p.length f st hi]
      refine ⟨?_, hbpl, hgsl⟩
      simp only [gsOuterLoopChecked, hi, if_false, Option.pure_def]

theorem gsFillLoopChecked_sim (bp : List Nat) (M : Nat) (hbpl : bp.length = M + 1) :
    ∀ fuel i j gs w, fuel + i = M + 1 → gs.length = M + 1 →
      gsFillLoopChecked bp fuel i j gs w = some (gsFillLoop bp fuel i j gs w) := by
  intro fuel
  induction fuel with
  | zero =>
    intro i j gs w _ _
    rfl
  | succ f ih =>
    intro i j gs w hfi hgsl
    have hrg : readL gs i = some (gs.getD i 0) := readL_eq gs i 0 (by omega)
    by_cases hg : gs.getD i 0 = 0
    · have hwg : writeL gs i (Int.ofNat j) = some (gs.set i (Int.ofNat j)) :=
        writeL_eq _ _ _ (by omega)
      rw [gsFillLoop_step_write bp f i j gs w hg]
      by_cases hij : i = j
      · subst hij
        have hrbp : readL bp i = some (bp.getD i 0) := readL_eq bp i 0 (by omega)
        rw [if_pos rfl]
        simp only [gsFillLoopChecked, hrg, Option.bind_eq_bind, Option.some_bind, hg,
          eq_self_iff_true, if_true, hwg, Option.pure_def, hrbp]
        exact ih (i+1) (bp.getD i 0) _ _ (by omega) (by rw [List.length_set]; exact hgsl)
      · rw [if_neg hij]
        simp only [gsFillLoopChecked, hrg, Option.bind_eq_bind, Option.some_bind, hg,
          eq_self_iff_true, if_true, hwg, Option.pure_def, hij, if_false]
        exact ih (i+1) j _ _ (by omega) (by rw [List.length_set]; exact hgsl)
    · rw [gsFillLoop_step_skip bp f i j gs w hg]
      by_cases hij : i = j
      · subst hij
        have hrbp : readL bp i = some (bp.getD i 0) := readL_eq bp i 0 (by omega)
        rw [if_pos rfl]
        simp only [gsFillLoopChecked, hrg, Option.bind_eq_bind, Option.some_bind, hg,
          if_false, Option.pure_def, hrbp]
        exact ih (i+1) (bp.getD i 0) _ _ (by omega) hgsl
      · rw [if_neg hij]
        simp only [gsFillLoopChecked, hrg, Option.bind_eq_bind, Option.some_bind, hg,
          if_false, Option.pure_def, hij]
        exact ih (i+1) j _ _ (by omega) hgsl

theorem precomputeGoodSuffixTableChecked_sim (p : List Symb) :
    precomputeGoodSuffixTableChecked p = some (precomputeGoodSuffixTable p) := by
  have hw0 : writeL (List.replicate (p.length + 1) (0 : Nat)) p.length (p.length + 1) =
      some ((List.replicate (p.length + 1) (0 : Nat)).set p.length (p.length + 1)) :=
    writeL_eq _ _ _ (by rw [List.length_replicate]; omega)
  have hbp0len : ((List.replicate (p.length + 1) (0 : Nat)).set p.length
      (p.length + 1)).length = p.length + 1 := by
    rw [List.length_set, List.length_replicate]
  have hbp0get : ((List.replicate (p.length + 1) (0 : Nat)).set p.length
      (p.length + 1)).getD p.length 0 = p.length + 1 :=
    getD_set_self _ _ _ _ (by rw [List.length_replicate]; omega)
  obtain ⟨houter, hTbp, hTgs⟩ := gsOuterLoopChecked_sim p p.length
    { bp := (List.replicate (p.length + 1) 0).set p.length (p.length + 1),
      gs := List.replicate (p.length + 1) 0,
      i := p.length, j := p.length + 1, writes := [] }
    (by dsimp only; exact le_rfl)
    (by dsimp only; exact hbp0len)
    (by dsimp only; exact List.length_replicate _ _)
    (by dsimp only; rw [hbp0get])
    (by
      dsimp only
      intro k hk1 hk2
      have hk : k = p.length := le_antisymm hk2 hk1
      subst hk
      rw [hbp0get]
      omega)
  have hj0 : readL (gsOuterLoop p p.length p.length
      { bp := (List.replicate (p.length + 1) 0).set p.length (p.length + 1),
        gs := List.replicate (p.length + 1) 0,
        i := p.length, j := p.length + 1, writes := [] }).bp 0 =
      some ((gsOuterLoop p p.length p.length
      { bp := (List.replicate (p.length + 1) 0).set p.length (p.length + 1),
        gs := List.replicate (p.length + 1) 0,
        i := p.length, j := p.length + 1, writes := [] }).bp.getD 0 0) :=
    readL_eq _ _ 0 (by rw [hTbp]; omega)
  have hfill := gsFillLoopChecked_sim (gsOuterLoop p p.length p.length
      { bp := (List.replicate (p.length + 1) 0).set p.length (p.length + 1),
        gs := List.replicate (p.length + 1) 0,
        i := p.length, j := p.length + 1, writes := [] }).bp p.length hTbp
    (p.length + 1) 0
    ((gsOuterLoop p p.length p.length
      { bp := (List.replicate (p.length + 1) 0).set p.length (p.length + 1),
        gs := List.replicate (p.length + 1) 0,
        i := p.length, j := p.length + 1, writes := [] }).bp.getD 0 0)
    (gsOuterLoop p p.length p.length
      { bp := (List.replicate (p.length + 1) 0).set p.length (p.length + 1),
        gs := List.replicate (p.length + 1) 0,
        i := p.length, j := p.length + 1, writes := [] }).gs
    (gsOuterLoop p p.length p.length
      { bp := (List.replicate (p.length + 1) 0).set p.length (p.length + 1),
        gs := List.replicate (p.length + 1) 0,
        i := p.length, j := p.length + 1, writes := [] }).writes
    (by omega) hTgs
  simp only [precomputeGoodSuffixTableChecked, hw0, Option.bind_eq_bind,
    Option.some_bind, houter, hj0, hfill, Option.pure_def]
  rfl

theorem bmStepChecked_sim (t pat : List Symb) (bc gs : List Int)
    (hm : 1 ≤ pat.length) (hmn : pat.length ≤ t.length)
    (hbcl : bc.length = NUM_CHARS) (hgsl : gs.length = pat.length + 1)
    (st : BMState) (hs : st.shift ≤ t.length - pat.length) :
    bmStepChecked t pat bc gs t.length pat.length st =
      some (bmStep t pat bc gs t.length pat.length st) := by
  have hscan := mismatchAtChecked_sim t pat st.shift (pat.length - 1)
    (by omega) (by omega)
  rcases hmm : mismatchAt t pat st.shift (pat.length - 1) with _ | j
  · rw [hmm] at hscan
    have hr0 : readL gs 0 = some (gs.getD 0 0) := readL_eq gs 0 0 (by omega)
    simp only [bmStepChecked, hscan, Option.bind_eq_bind, Option.some_bind,
      hr0, Option.pure_def, bmStep, hmm]
  · rw [hmm] at hscan
    have hj := mismatchAt_some_spec t pat st.shift (pat.length - 1) j hmm
    have hrt : readL t (st.shift + j) = some (t.getD (st.shift + j) 0) :=
      readL_eq t (st.shift + j) 0 (by omega)
    have hrbc : readL bc (t.getD (st.shift + j) 0).val =
        some (bc.getD (t.getD (st.shift + j) 0).val 0) :=
      readL_eq bc _ 0 (by rw [hbcl]; exact (t.getD (st.shift + j) 0).isLt)
    have hrg : readL gs (j+1) = some (gs.getD (j+1) 0) :=
      readL_eq gs (j+1) 0 (by omega)
    simp only [bmStepChecked, hscan, Option.bind_eq_bind, Option.some_bind,
      hrt, hrbc, hrg, Option.pure_def, bmStep, hmm]

theorem bmLoopChecked_sim (t pat : List Symb) (bc gs : List Int)
    (hm : 1 ≤ pat.length) (hmn : pat.length ≤ t.length)
    (hbcl : bc.length = NUM_CHARS) (hgsl : gs.length = pat.length + 1) :
    ∀ fuel st,
      bmLoopChecked t pat bc gs t.length pat.length fuel st =
        some (bmLoop t pat bc gs t.length pat.length fuel st) := by
  intro fuel
  induction fuel with
  | zero =>
    intro st
    rfl
  | succ f ih =>
    intro st
    by_cases hs : st.shift ≤ t.length - pat.length
    · have hstep := bmStepChecked_sim t pat bc gs hm hmn hbcl hgsl st hs
      simp only [bmLoopChecked, bmLoop, hs, if_true, hstep, Option.bind_eq_bind,
        Option.some_bind]
      exact ih _
    · simp only [bmLoopChecked, bmLoop, hs, if_false, Option.pure_def]

/-- C8: every array and string access performed by the search and by the two
table constructions stays in bounds.  The bounds-checked shadow interpreters
(`searchBoyerMooreChecked`, `precomputeGoodSuffixTableChecked`,
`precomputeBadCharacterTableChecked`), in which every read and write of
`text`, `pattern`, `badCharTable`, `goodSuffixShifts` and `borderPos` fails
with `none` on an out-of-range index, never fail: they return `some` of the
unchecked results, for every text and pattern.  In particular, in the scan
loop every comparison reads `pattern` at `j ≤ m-1` and `text` at
`shift+j ≤ n-1`, `goodSuffixShifts` is only indexed within `[0, m]`,
`badCharTable` only within `[0, 255]`, and `borderPos` only within `[0, m]`
after being sized `m+1`. -/
theorem claim_C8_memorySafety (text pattern : List Symb) :
    searchBoyerMooreChecked text pattern = some (searchBoyerMoore text pattern) ∧
    precomputeGoodSuffixTableChecked pattern = some (precomputeGoodSuffixTable pattern) ∧
    precomputeBadCharacterTableChecked pattern = some (precomputeBadCharacterTable pattern) := by
  refine ⟨?_, precomputeGoodSuffixTableChecked_sim pattern,
    precomputeBadCharacterTableChecked_sim pattern⟩
  by_cases hdeg : pattern.length = 0 ∨ text.length < pattern.length
  · simp only [searchBoyerMooreChecked, searchBoyerMoore, if_pos hdeg]
  · have hm : 1 ≤ pattern.length := by omega
    have hmn : pattern.length ≤ text.length := by omega
    have hgsl : (precomputeGoodSuffixTable pattern).length = pattern.length + 1 :=
      (gsTable_facts pattern hm).1
    have hloop := bmLoopChecked_sim text pattern
      (precomputeBadCharacterTable pattern) (precomputeGoodSuffixTable pattern)
      hm hmn (precomputeBadCharacterTable_length pattern) hgsl
      (text.length - pattern.length + 1) initBMState
    simp only [searchBoyerMooreChecked, searchBoyerMoore, if_neg hdeg,
      precomputeBadCharacterTableChecked_sim, Option.bind_eq_bind, Option.some_bind,
      precomputeGoodSuffixTableChecked_sim, hloop, Option.pure_def]
